import Mathlib

/-!
Shallow embedding of the pet-on-desk motion subsystem:
the motion-config data model, validator and normalizer
(`src/lib/motion/config.ts`), the tween preset engine
(`applyTweenPreset` / `applyFrame` / `cancelActiveTween`), the wired
motion engine (`handleInput` / `playMotionOrFallback` /
`triggerFallbackTween` / `maybePlayIdle`), and the frame scheduler of
the stage component.  JavaScript numbers that the code treats as exact
data are modelled as `ℚ` (JSON cannot carry NaN or infinities), the
trigonometric tween frames as `ℝ`, strings as Lean `String` with an
explicit JS-style `trim`.
-/

namespace PetOnDesk

/-- A JSON-like value, the input domain of `validateMotionConfig`.
JavaScript `undefined` is modelled by the absence of an object field
(`Option` results of `jsonGet`). -/
inductive Json where
  | null : Json
  | bool (b : Bool) : Json
  | num (q : ℚ) : Json
  | str (s : String) : Json
  | arr (xs : List Json) : Json
  | obj (fields : List (String × Json)) : Json

/-- JS whitespace test used by `String.prototype.trim` (the characters
that occur in practice). -/
def isJsWs (c : Char) : Bool :=
  c = ' ' || c = '\t' || c = '\n' || c = '\r'

/-- JavaScript `value.trim()`. -/
def jsTrim (s : String) : String :=
  ⟨((s.data.dropWhile isJsWs).reverse.dropWhile isJsWs).reverse⟩

/-- Field lookup in a JSON object; `none` plays the role of
JavaScript `undefined`. -/
def jsonGet (fields : List (String × Json)) (key : String) : Option Json :=
  fields.lookup key

/-- `asNonEmptyString`, acting on a single value. -/
def asNonEmptyStr1 (v : Json) : Option String :=
  match v with
  | .str s => if 0 < (jsTrim s).length then some (jsTrim s) else none
  | _ => none

/-- `asNonEmptyString` of config.ts: `null` unless the value is a
string with non-empty trimmed content; returns the trimmed string. -/
def asNonEmptyString (v : Option Json) : Option String :=
  match v with
  | some j => asNonEmptyStr1 j
  | none => none

/-- `asIntegerInRange` of config.ts: a finite integral number inside
`[min, max]`.  A rational is integral exactly when its denominator is
1. -/
def asIntegerInRange (v : Option Json) (min max : Int) : Option Int :=
  match v with
  | some (.num q) => if q.den = 1 ∧ min ≤ q.num ∧ q.num ≤ max then some q.num else none
  | _ => none

/-- `asNumberInRange` of config.ts. -/
def asNumberInRange (v : Option Json) (min max : ℚ) : Option ℚ :=
  match v with
  | some (.num q) => if min ≤ q ∧ q ≤ max then some q else none
  | _ => none

/-- `TweenPreset` of config.ts. -/
inductive TweenPreset where
  | bounce : TweenPreset
  | shake : TweenPreset
  | nod : TweenPreset
deriving DecidableEq, Repr

/-- `InputAction` of config.ts: the tagged union of the four action
variants, each carrying its optional `cooldownMs`. -/
inductive InputAction where
  | motion (group : String) (index : Option Int) (priority : Option Int)
      (cooldownMs : Option Int) : InputAction
  | expression (name : String) (cooldownMs : Option Int) : InputAction
  | tween (preset : TweenPreset) (strength : Option ℚ)
      (cooldownMs : Option Int) : InputAction
  | combo (ruleId : String) (cooldownMs : Option Int) : InputAction
deriving DecidableEq, Repr

/-- Whether an action is the `combo` variant (the TS type
`ExecutableInputAction` excludes it). -/
def InputAction.isCombo : InputAction → Bool
  | .combo _ _ => true
  | _ => false

/-- `ComboRule` of config.ts. -/
structure ComboRule where
  id : String
  sequence : List String
  withinMs : Int
  action : InputAction
  cooldownMs : Option Int
deriving DecidableEq, Repr

/-- `IdleEntry` of config.ts. -/
structure IdleEntry where
  action : InputAction
  weight : Option ℚ
deriving DecidableEq, Repr

/-- `IdleConfig` of config.ts. -/
structure IdleConfig where
  enabled : Bool
  afterMs : Int
  intervalMs : Option Int
  actions : List IdleEntry
deriving DecidableEq, Repr

/-- `MotionConfig` of config.ts (the literal field `version: 1` is
emitted by `motionConfigToJson`). -/
structure MotionConfig where
  keyMap : List (String × InputAction)
  comboRules : List ComboRule
  idle : IdleConfig
deriving DecidableEq, Repr

/-- `cloneAction` of config.ts: field-by-field copy of one action. -/
def cloneAction : InputAction → InputAction
  | .motion group index priority cooldownMs => .motion group index priority cooldownMs
  | .expression name cooldownMs => .expression name cooldownMs
  | .tween preset strength cooldownMs => .tween preset strength cooldownMs
  | .combo ruleId cooldownMs => .combo ruleId cooldownMs

/-- `cloneMotionConfig` of config.ts, at the level of values. -/
def cloneMotionConfig (config : MotionConfig) : MotionConfig :=
  { keyMap := config.keyMap.map (fun p => (p.1, cloneAction p.2))
    comboRules := config.comboRules.map (fun rule =>
      { id := rule.id
        sequence := rule.sequence
        withinMs := rule.withinMs
        action := cloneAction rule.action
        cooldownMs := rule.cooldownMs })
    idle :=
      { enabled := config.idle.enabled
        afterMs := config.idle.afterMs
        intervalMs := config.idle.intervalMs
        actions := config.idle.actions.map (fun entry =>
          { action := cloneAction entry.action, weight := entry.weight }) } }

/-- `defaultMotionConfig` of config.ts. -/
def defaultMotionConfig : MotionConfig :=
  { keyMap :=
      [ ("KeyA", .motion "tap_left" (some 0) (some 2) (some 120))
      , ("KeyD", .motion "tap_right" (some 0) (some 2) (some 120))
      , ("MouseLeft", .tween .bounce (some (4/5)) (some 80))
      , ("KeyS", .expression "smile" (some 800))
      , ("KeyQ", .combo "left-right-burst" (some 200)) ]
    comboRules :=
      [ { id := "left-right-burst"
          sequence := ["KeyA", "KeyD"]
          withinMs := 250
          action := .motion "combo_burst" none (some 3) (some 500)
          cooldownMs := some 700 } ]
    idle :=
      { enabled := true
        afterMs := 8000
        intervalMs := some 6000
        actions :=
          [ { action := .motion "idle_1" none none none, weight := some 3 }
          , { action := .motion "idle_2" none none none, weight := some 2 }
          , { action := .expression "blink" none, weight := some 1 } ] } }

/-! ## Config validator (`validateMotionConfig` and helpers) -/

/-- Insert-or-replace on an association list, keeping the position of an
existing key: the behaviour of `keyMap[inputKey] = parsed` on a JS
object. -/
def upsert : List (String × InputAction) → String → InputAction → List (String × InputAction)
  | [], key, a => [(key, a)]
  | (k, v) :: rest, key, a =>
    if k = key then (key, a) :: rest else (k, v) :: upsert rest key a

/-- Shared shape of the optional integer fields: absent stays absent,
present but invalid is dropped with an error, valid is kept. -/
def optIntField (v : Option Json) (min max : Int) (msg : String) :
    Option Int × List String :=
  match v with
  | none => (none, [])
  | some _ =>
    match asIntegerInRange v min max with
    | none => (none, [msg])
    | some n => (some n, [])

/-- Shared shape of the optional number fields (`strength`, `weight`). -/
def optNumField (v : Option Json) (min max : ℚ) (msg : String) :
    Option ℚ × List String :=
  match v with
  | none => (none, [])
  | some _ =>
    match asNumberInRange v min max with
    | none => (none, [msg])
    | some q => (some q, [])

/-- `parseCooldown` of config.ts. -/
def parseCooldown (v : Option Json) (path : String) : Option Int × List String :=
  optIntField v 0 60000 (path ++ ".cooldownMs must be an integer between 0 and 60000.")

/-- `parseMotionAction` of config.ts. -/
def parseMotionAction (fields : List (String × Json)) (path : String) :
    Option InputAction × List String :=
  match asNonEmptyString (jsonGet fields "group") with
  | none => (none, [path ++ ".group must be a non-empty string."])
  | some group =>
    let pi := optIntField (jsonGet fields "index") 0 1024
      (path ++ ".index must be an integer between 0 and 1024.")
    let pp := optIntField (jsonGet fields "priority") 0 10
      (path ++ ".priority must be an integer between 0 and 10.")
    let pc := parseCooldown (jsonGet fields "cooldownMs") path
    (some (.motion group pi.1 pp.1 pc.1), pi.2 ++ pp.2 ++ pc.2)

/-- `parseTweenAction` of config.ts: `preset` must be exactly one of
the three literals (no trimming), `strength` is optional in
`[0.05, 3]`. -/
def parseTweenAction (fields : List (String × Json)) (path : String) :
    Option InputAction × List String :=
  let bad : Option InputAction × List String :=
    (none, [path ++ ".preset must be one of: bounce, shake, nod."])
  match jsonGet fields "preset" with
  | some (.str p) =>
    let preset : Option TweenPreset :=
      if p = "bounce" then some .bounce
      else if p = "shake" then some .shake
      else if p = "nod" then some .nod
      else none
    match preset with
    | none => bad
    | some preset =>
      let ps := optNumField (jsonGet fields "strength") (1/20) 3
        (path ++ ".strength must be a number between 0.05 and 3.")
      let pc := parseCooldown (jsonGet fields "cooldownMs") path
      (some (.tween preset ps.1 pc.1), ps.2 ++ pc.2)
  | _ => bad

/-- `parseAction` of config.ts: dispatch on the trimmed `kind` tag. -/
def parseAction (v : Json) (path : String) (allowCombo : Bool) :
    Option InputAction × List String :=
  match v with
  | .obj fields =>
    match asNonEmptyString (jsonGet fields "kind") with
    | none => (none, [path ++ ".kind must be a non-empty string."])
    | some kind =>
      if kind = "motion" then parseMotionAction fields path
      else if kind = "expression" then
        match asNonEmptyString (jsonGet fields "name") with
        | none => (none, [path ++ ".name must be a non-empty string."])
        | some name =>
          let pc := parseCooldown (jsonGet fields "cooldownMs") path
          (some (.expression name pc.1), pc.2)
      else if kind = "tween" then parseTweenAction fields path
      else if kind = "combo" then
        if !allowCombo then
          (none, [path ++ ".kind=combo is not allowed in this context."])
        else
          match asNonEmptyString (jsonGet fields "ruleId") with
          | none => (none, [path ++ ".ruleId must be a non-empty string."])
          | some ruleId =>
            let pc := parseCooldown (jsonGet fields "cooldownMs") path
            (some (.combo ruleId pc.1), pc.2)
      else (none, [path ++ ".kind must be one of: motion, expression, tween, combo."])
  | _ => (none, [path ++ " must be an object."])

/-- The entry loop of `parseKeyMap`: each entry of the raw object in
order, dropping invalid ones with an error and upserting valid ones
under the trimmed key. -/
def parseKeyMapEntries (acc : List (String × InputAction)) :
    List (String × Json) → List (String × InputAction) × List String
  | [] => (acc, [])
  | (k, v) :: rest =>
    let key := jsTrim k
    if key.length = 0 then
      let r := parseKeyMapEntries acc rest
      (r.1, "keyMap contains an empty input key." :: r.2)
    else
      match parseAction v ("keyMap." ++ key) true with
      | (none, e1) =>
        let r := parseKeyMapEntries acc rest
        (r.1, e1 ++ r.2)
      | (some a, e1) =>
        let r := parseKeyMapEntries (upsert acc key a) rest
        (r.1, e1 ++ r.2)

/-- `parseKeyMap` of config.ts. -/
def parseKeyMap (v : Option Json) : List (String × InputAction) × List String :=
  match v with
  | some (.obj fields) =>
    let r := parseKeyMapEntries [] fields
    if r.1.isEmpty then
      ((cloneMotionConfig defaultMotionConfig).keyMap,
        r.2 ++ ["keyMap must contain at least one valid input action."])
    else r
  | _ => ((cloneMotionConfig defaultMotionConfig).keyMap, ["keyMap must be an object."])

/-- JS field access that hands `undefined` on to a validator expecting
any value: observationally the validators treat `undefined` like any
non-object, non-string, non-number value, so `null` stands in for it. -/
def jsonGetD (fields : List (String × Json)) (key : String) : Json :=
  (jsonGet fields key).getD .null

/-- One item of the `comboRules` array (the body of the `forEach` in
config.ts), given the set of ids already taken. -/
def parseComboRuleItem (item : Json) (path : String) (idSet : List String) :
    Option ComboRule × List String :=
  match item with
  | .obj fields =>
    match asNonEmptyString (jsonGet fields "id") with
    | none => (none, [path ++ ".id must be a non-empty string."])
    | some id =>
      if idSet.contains id then
        (none, [path ++ ".id must be unique, duplicate: " ++ id ++ "."])
      else
        match jsonGet fields "sequence" with
        | some (.arr seqRaw) =>
          if seqRaw.length < 2 then
            (none, [path ++ ".sequence must be an array with at least 2 inputs."])
          else
            let sequence := seqRaw.filterMap asNonEmptyStr1
            if sequence.length ≠ seqRaw.length then
              (none, [path ++ ".sequence must contain only non-empty strings."])
            else
              match asIntegerInRange (jsonGet fields "withinMs") 1 10000 with
              | none => (none, [path ++ ".withinMs must be an integer between 1 and 10000."])
              | some withinMs =>
                match parseAction (jsonGetD fields "action") (path ++ ".action") false with
                | (none, ae) =>
                  (none, ae ++ [path ++ ".action must be motion/expression/tween."])
                | (some action, ae) =>
                  if action.isCombo then
                    (none, ae ++ [path ++ ".action must be motion/expression/tween."])
                  else
                    let pc := parseCooldown (jsonGet fields "cooldownMs") path
                    (some { id, sequence, withinMs, action, cooldownMs := pc.1 },
                      ae ++ pc.2)
        | _ => (none, [path ++ ".sequence must be an array with at least 2 inputs."])
  | _ => (none, [path ++ " must be an object."])

/-- The `forEach` loop of `parseComboRules`, threading the index (for
paths) and the id set. -/
def parseComboRuleItems (idx : Nat) (idSet : List String) :
    List Json → List ComboRule × List String
  | [] => ([], [])
  | item :: rest =>
    let path := "comboRules[" ++ Nat.repr idx ++ "]"
    match parseComboRuleItem item path idSet with
    | (none, errs) =>
      let r := parseComboRuleItems (idx + 1) idSet rest
      (r.1, errs ++ r.2)
    | (some rule, errs) =>
      let r := parseComboRuleItems (idx + 1) (idSet ++ [rule.id]) rest
      (rule :: r.1, errs ++ r.2)

/-- `parseComboRules` of config.ts. -/
def parseComboRules (v : Option Json) : List ComboRule × List String :=
  match v with
  | none => ((cloneMotionConfig defaultMotionConfig).comboRules, [])
  | some (.arr items) => parseComboRuleItems 0 [] items
  | some _ => ((cloneMotionConfig defaultMotionConfig).comboRules, ["comboRules must be an array."])

/-- The `forEach` loop of `parseIdleActions`. -/
def parseIdleActionItems (idx : Nat) :
    List Json → List IdleEntry × List String
  | [] => ([], [])
  | item :: rest =>
    let path := "idle.actions[" ++ Nat.repr idx ++ "]"
    match item with
    | .obj fields =>
      (match parseAction (jsonGetD fields "action") (path ++ ".action") false with
      | (none, ae) =>
        let r := parseIdleActionItems (idx + 1) rest
        (r.1, ae ++ [path ++ ".action must be motion/expression/tween."] ++ r.2)
      | (some action, ae) =>
        if action.isCombo then
          let r := parseIdleActionItems (idx + 1) rest
          (r.1, ae ++ [path ++ ".action must be motion/expression/tween."] ++ r.2)
        else
          let pw := optNumField (jsonGet fields "weight") (1/100) 100
            (path ++ ".weight must be a number between 0.01 and 100.")
          let r := parseIdleActionItems (idx + 1) rest
          ({ action, weight := pw.1 } :: r.1, ae ++ pw.2 ++ r.2))
    | _ =>
      let r := parseIdleActionItems (idx + 1) rest
      (r.1, (path ++ " must be an object.") :: r.2)

/-- `parseIdleActions` of config.ts. -/
def parseIdleActions (v : Option Json) : List IdleEntry × List String :=
  match v with
  | some (.arr items) =>
    if items.isEmpty then
      ((cloneMotionConfig defaultMotionConfig).idle.actions,
        ["idle.actions must be a non-empty array."])
    else
      let r := parseIdleActionItems 0 items
      if r.1.isEmpty then
        ((cloneMotionConfig defaultMotionConfig).idle.actions,
          r.2 ++ ["idle.actions has no valid entries."])
      else r
  | _ =>
    ((cloneMotionConfig defaultMotionConfig).idle.actions,
      ["idle.actions must be a non-empty array."])

/-- `parseIdleConfig` of config.ts. -/
def parseIdleConfig (v : Option Json) : IdleConfig × List String :=
  match v with
  | some (.obj fields) =>
    let pe : Bool × List String :=
      match jsonGet fields "enabled" with
      | none => (true, [])
      | some (.bool b) => (b, [])
      | some _ => (true, ["idle.enabled must be a boolean."])
    let pa : Option Int × List String :=
      match asIntegerInRange (jsonGet fields "afterMs") 500 600000 with
      | none => (none, ["idle.afterMs must be an integer between 500 and 600000."])
      | some n => (some n, [])
    let pint := optIntField (jsonGet fields "intervalMs") 100 600000
      "idle.intervalMs must be an integer between 100 and 600000."
    let pacts := parseIdleActions (jsonGet fields "actions")
    ({ enabled := pe.1
       afterMs := pa.1.getD (cloneMotionConfig defaultMotionConfig).idle.afterMs
       intervalMs := pint.1
       actions := pacts.1 },
      pe.2 ++ pa.2 ++ pint.2 ++ pacts.2)
  | _ => ((cloneMotionConfig defaultMotionConfig).idle, ["idle must be an object."])

/-- The result record of `validateMotionConfig`. -/
structure MotionConfigValidationResult where
  ok : Bool
  errors : List String
  value : Option MotionConfig
deriving DecidableEq, Repr

/-- `validateMotionConfig` of config.ts. -/
def validateMotionConfig (raw : Json) : MotionConfigValidationResult :=
  match raw with
  | .obj fields =>
    let versionErrs : List String :=
      match jsonGet fields "version" with
      | none => []
      | some (.num q) => if q = 1 then [] else ["version must be 1."]
      | some _ => ["version must be 1."]
    let pk := parseKeyMap (jsonGet fields "keyMap")
    let pr := parseComboRules (jsonGet fields "comboRules")
    let pidle := parseIdleConfig (jsonGet fields "idle")
    let errors := versionErrs ++ pk.2 ++ pr.2 ++ pidle.2
    if errors.isEmpty then
      { ok := true, errors
        value := some { keyMap := pk.1, comboRules := pr.1, idle := pidle.1 } }
    else { ok := false, errors, value := none }
  | _ => { ok := false, errors := ["Motion config root must be an object."], value := none }

/-- `resolveMotionConfig` of config.ts: the validated value on success,
a clone of the built-in default otherwise. -/
def resolveMotionConfig (raw : Json) : MotionConfig :=
  match validateMotionConfig raw with
  | ⟨true, _, some value⟩ => value
  | _ => cloneMotionConfig defaultMotionConfig

/-! ## Serialization of a `MotionConfig` back to JSON (the runtime value
a validated config is: re-validation in C4 is stated through it). -/

/-- An optional field of a JSON object: omitted when absent. -/
def optField (key : String) (v : Option Json) : List (String × Json) :=
  match v with
  | none => []
  | some j => [(key, j)]

/-- An integer as a JSON number. -/
def intJson (n : Int) : Json := .num n

/-- The string tag of a tween preset. -/
def presetToStr : TweenPreset → String
  | .bounce => "bounce"
  | .shake => "shake"
  | .nod => "nod"

/-- The JSON object an `InputAction` value is at runtime. -/
def actionToJson : InputAction → Json
  | .motion group index priority cooldownMs =>
    .obj ([("kind", .str "motion"), ("group", .str group)]
      ++ optField "index" (index.map intJson)
      ++ optField "priority" (priority.map intJson)
      ++ optField "cooldownMs" (cooldownMs.map intJson))
  | .expression name cooldownMs =>
    .obj ([("kind", .str "expression"), ("name", .str name)]
      ++ optField "cooldownMs" (cooldownMs.map intJson))
  | .tween preset strength cooldownMs =>
    .obj ([("kind", .str "tween"), ("preset", .str (presetToStr preset))]
      ++ optField "strength" (strength.map Json.num)
      ++ optField "cooldownMs" (cooldownMs.map intJson))
  | .combo ruleId cooldownMs =>
    .obj ([("kind", .str "combo"), ("ruleId", .str ruleId)]
      ++ optField "cooldownMs" (cooldownMs.map intJson))

/-- The JSON object a `ComboRule` value is at runtime. -/
def comboRuleToJson (r : ComboRule) : Json :=
  .obj ([("id", .str r.id), ("sequence", .arr (r.sequence.map Json.str)),
    ("withinMs", intJson r.withinMs), ("action", actionToJson r.action)]
    ++ optField "cooldownMs" (r.cooldownMs.map intJson))

/-- The JSON object an `IdleEntry` value is at runtime. -/
def idleEntryToJson (e : IdleEntry) : Json :=
  .obj ([("action", actionToJson e.action)]
    ++ optField "weight" (e.weight.map Json.num))

/-- The JSON object an `IdleConfig` value is at runtime. -/
def idleConfigToJson (i : IdleConfig) : Json :=
  .obj ([("enabled", .bool i.enabled), ("afterMs", intJson i.afterMs)]
    ++ optField "intervalMs" (i.intervalMs.map intJson)
    ++ [("actions", .arr (i.actions.map idleEntryToJson))])

/-- The JSON object a `MotionConfig` value is at runtime. -/
def motionConfigToJson (c : MotionConfig) : Json :=
  .obj [("version", .num 1),
    ("keyMap", .obj (c.keyMap.map (fun p => (p.1, actionToJson p.2)))),
    ("comboRules", .arr (c.comboRules.map comboRuleToJson)),
    ("idle", idleConfigToJson c.idle)]

/-! ## Tween presets (`applyFrame` of config.ts), over ℝ -/

/-- A target transform as `applyFrame` reads and writes it
(`origin`/frame record of config.ts). -/
structure TweenFrame where
  x : ℝ
  y : ℝ
  scaleX : ℝ
  scaleY : ℝ
  rotation : ℝ

/-- `clamp` of config.ts, over ℝ. -/
noncomputable def clampR (value min max : ℝ) : ℝ :=
  Min.min max (Max.max min value)

/-- `getDuration` of config.ts. -/
def getDuration : TweenPreset → Int
  | .bounce => 340
  | .shake => 260
  | .nod => 320

/-- `applyFrame` of config.ts: the pure frame function of each preset,
of normalized progress `t` and the strength multiplier. -/
noncomputable def applyFrame (preset : TweenPreset) (t strength : ℝ)
    (origin : TweenFrame) : TweenFrame :=
  match preset with
  | .bounce =>
    let lift := Real.sin (t * Real.pi) * 16 * strength
    let squash := 1 - Real.sin (t * Real.pi) * (8/100) * strength
    let stretch := 1 + Real.sin (t * Real.pi) * (6/100) * strength
    let tilt := Real.sin (t * Real.pi) * (3/100) * strength
    { x := origin.x
      y := origin.y - lift
      scaleX := origin.scaleX * stretch
      scaleY := origin.scaleY * squash
      rotation := origin.rotation + tilt }
  | .shake =>
    let damp := 1 - t
    let wave := Real.sin (t * Real.pi * 10)
    let waveRot := Real.sin (t * Real.pi * 8)
    { x := origin.x + wave * 14 * strength * damp
      y := origin.y
      scaleX := origin.scaleX * (1 + |wave| * (2/100) * strength * damp)
      scaleY := origin.scaleY * (1 - |wave| * (2/100) * strength * damp)
      rotation := origin.rotation + waveRot * (8/100) * strength * damp }
  | .nod =>
    let damp := 1 - t
    let wave := Real.sin (t * Real.pi * 2)
    let lift := Max.max 0 wave * 7 * strength * damp
    { x := origin.x
      y := origin.y + lift
      scaleX := origin.scaleX
      scaleY := origin.scaleY
      rotation := origin.rotation + wave * (14/100) * strength * damp }

/-! ## The `applyTweenPreset` engine's cancel/restore state
(config.ts `activeTweens`, `cancelActiveTween`, the `tick` closure).
Transforms here are exact data (ℚ); the per-frame values written while
a tween is in flight are arbitrary inputs of the transition system. -/

/-- A target transform (position, scale, rotation) as exact data. -/
structure Transform where
  x : ℚ
  y : ℚ
  scaleX : ℚ
  scaleY : ℚ
  rotation : ℚ
deriving DecidableEq, Repr

/-- One `ActiveTween` record of config.ts, with its captured origin.
`done` models that the `tick` callback is not rescheduled after the
terminal frame (`t = 1`). -/
structure TweenRec where
  origin : Transform
  cancelled : Bool
  done : Bool
deriving DecidableEq, Repr

/-- Whether a tween record still drives frames. -/
def TweenRec.live (r : TweenRec) : Bool := !r.cancelled && !r.done

/-- The per-target state of the `applyTweenPreset` engine: the target's
transform, every tween record ever created for it, and the
`activeTweens` map slot (at most one entry per target, by `WeakMap`
semantics). -/
structure TweenSys where
  transform : Transform
  recs : List TweenRec
  slot : Option Nat
deriving DecidableEq, Repr

/-- `cancelActiveTween` of config.ts: flag the registered tween
cancelled, run its `restore` (write back its origin), drop it from the
map. -/
def cancelActiveTween (s : TweenSys) : TweenSys :=
  match s.slot with
  | none => s
  | some i =>
    match s.recs.get? i with
    | none => { s with slot := none }
    | some r =>
      { transform := r.origin
        recs := s.recs.set i { r with cancelled := true }
        slot := none }

/-- The state effect of `applyTweenPreset` of config.ts when a tween
starts: cancel any active tween first, then capture the current
transform as the new origin and register the new record. -/
def applyTweenPresetStart (s : TweenSys) : TweenSys :=
  let s1 := cancelActiveTween s
  { transform := s1.transform
    recs := s1.recs ++ [{ origin := s1.transform, cancelled := false, done := false }]
    slot := some s1.recs.length }

/-- One in-flight frame of the `tick` closure for record `i`
(`t < 1`): returns early when cancelled, otherwise writes the computed
frame (an arbitrary transform here). A record that reached `t = 1`
never ticks again (`done`). -/
def tweenTickFrame (s : TweenSys) (i : Nat) (frame : Transform) : TweenSys :=
  match s.recs.get? i with
  | none => s
  | some r =>
    if r.live then { s with transform := frame } else s

/-- The terminal frame of the `tick` closure for record `i`
(`t = 1`): returns early when cancelled, otherwise runs `restore`
(writes back the captured origin) and deletes the target from
`activeTweens`. -/
def tweenTickComplete (s : TweenSys) (i : Nat) : TweenSys :=
  match s.recs.get? i with
  | none => s
  | some r =>
    if r.live then
      { transform := r.origin
        recs := s.recs.set i { r with done := true }
        slot := none }
    else s

/-- Run a list of in-flight frames `(record index, written transform)`. -/
def tweenRunFrames (s : TweenSys) : List (Nat × Transform) → TweenSys
  | [] => s
  | (i, f) :: rest => tweenRunFrames (tweenTickFrame s i f) rest

/-! ## The wired motion engine (`src/unnamed/part_001`) -/

/-- `keyAliases` of the motion engine. -/
def keyAliases (key : String) : List String :=
  if key = "ArrowLeft" then ["LeftArrow"]
  else if key = "LeftArrow" then ["ArrowLeft"]
  else if key = "ArrowRight" then ["RightArrow"]
  else if key = "RightArrow" then ["ArrowRight"]
  else []

/-- `resolveBindingMotion` of the motion engine: the literal binding
first, then its aliases; the first mapping that is a string with
non-empty trimmed content wins. -/
def resolveBindingMotion (motionMap : List (String × Json)) (binding : String) :
    Option String :=
  let rec go : List String → Option String
    | [] => none
    | k :: ks =>
      match motionMap.lookup k with
      | some (.str s) => if 0 < (jsTrim s).length then some (jsTrim s) else go ks
      | _ => go ks
  go (binding :: keyAliases binding)

/-- Substring test on character lists (JS `String.prototype.includes`). -/
def charsHaveSub (sub : List Char) : List Char → Bool
  | [] => sub.isEmpty
  | c :: cs => sub.isPrefixOf (c :: cs) || charsHaveSub sub cs

/-- JS `haystack.includes(needle)`. -/
def strHasSub (s sub : String) : Bool :=
  charsHaveSub sub.data s.data

/-- `normalizeMouseBinding` of the motion engine: case-insensitive
substring match to one of the three mouse identifiers; an absent or
empty label (both falsy in JS) resolves to none. -/
def normalizeMouseBinding (button : Option String) : Option String :=
  match button with
  | none => none
  | some b =>
    if b.length = 0 then none
    else
      let normalized := b.toLower
      if strHasSub normalized "left" then some "MouseLeft"
      else if strHasSub normalized "right" then some "MouseRight"
      else if strHasSub normalized "middle" then some "MouseMiddle"
      else none

/-- The three ways the Model Runtime call `model.motion(name)` can
come back: resolves true, resolves false, or raises. -/
inductive RuntimeOutcome where
  | started : RuntimeOutcome
  | notStarted : RuntimeOutcome
  | raised : RuntimeOutcome
deriving DecidableEq, Repr

/-- What a dispatch did: the runtime confirmed the motion, or the
fallback tween was triggered with the given reason string. -/
inductive DispatchResult where
  | played (motion : String) : DispatchResult
  | fallback (reason : String) : DispatchResult
deriving DecidableEq, Repr

/-- `playMotionOrFallback` of the motion engine: no mapping, a false
return and a raised failure all trigger the fallback tween, each with
its diagnostic reason. -/
def playMotionOrFallback (runtime : String → RuntimeOutcome)
    (motionName : Option String) (reason : String) : DispatchResult :=
  match motionName with
  | none => .fallback (reason ++ " (no mapping)")
  | some name =>
    match runtime name with
    | .started => .played name
    | .notStarted => .fallback (reason ++ " (" ++ name ++ " not started)")
    | .raised => .fallback (reason ++ " (" ++ name ++ " failed)")

/-- An input event of the global listener
(`MotionEngineInputEvent`). -/
structure InputEvent where
  type : String
  keyCode : Option String
  button : Option String
  x : Option ℚ
  y : Option ℚ
  timestamp : Option Int
deriving DecidableEq, Repr

/-- `isUserInputEvent` of the motion engine. -/
def isUserInputEvent (eventType : String) : Bool :=
  eventType = "KeyPress" || eventType = "KeyRelease" || eventType = "MouseMove" ||
    eventType = "ButtonPress" || eventType = "ButtonRelease"

/-- The dispatch part of `handleInput` of the motion engine: what a
`KeyPress` or `ButtonPress` event makes the engine do (other event
types dispatch nothing). -/
def handleInput (runtime : String → RuntimeOutcome)
    (motionMap : List (String × Json)) (event : InputEvent) :
    Option DispatchResult :=
  if event.type = "KeyPress" then
    let keyCode := (event.keyCode.map jsTrim).getD ""
    if keyCode.length = 0 then some (.fallback "keypress missing keyCode")
    else
      some (playMotionOrFallback runtime (resolveBindingMotion motionMap keyCode)
        ("keypress:" ++ keyCode))
  else if event.type = "ButtonPress" then
    let mouseBinding := normalizeMouseBinding event.button
    let motionName :=
      match mouseBinding with
      | some b => resolveBindingMotion motionMap b
      | none => none
    some (playMotionOrFallback runtime motionName
      ("mouse:" ++ (mouseBinding.getD ((event.button).getD "unknown"))))
  else none

/-! ## `triggerFallbackTween` of the motion engine, as a pure
simulation: the tween is a function of its captured origin, random
direction, start time and the current time.  Superseding a running
tween cancels its pending animation frame but writes nothing back. -/

/-- `lerp` of the motion engine. -/
def lerp (a b t : ℚ) : ℚ := a + (b - a) * t

/-- `clamp` of the motion engine / config.ts, over ℚ. -/
def clampQ (value min max : ℚ) : ℚ :=
  Min.min max (Max.max min value)

/-- `easeOutCubic` of the motion engine. -/
def easeOutCubic (t : ℚ) : ℚ := 1 - (1 - t) ^ 3

/-- `easeInOutQuad` of the motion engine. -/
def easeInOutQuad (t : ℚ) : ℚ :=
  if t < 1/2 then 2 * t * t else 1 - ((-2) * t + 2) ^ 2 / 2

/-- A running fallback tween of the motion engine: the origin captured
from the model's transform at trigger time, the random direction and
the start timestamp. -/
structure FbTween where
  origin : Transform
  direction : ℚ
  startAt : ℚ
deriving DecidableEq, Repr

/-- The `peak` record of `triggerFallbackTween`. -/
def fbPeak (origin : Transform) (direction : ℚ) : Transform :=
  { x := origin.x + direction * 12
    y := origin.y - 6
    scaleX := origin.scaleX * (1 + 8/100)
    scaleY := origin.scaleY * (1 - 6/100)
    rotation := origin.rotation + direction * (8/100) }

/-- `triggerFallbackTween` of the motion engine: cancel the pending
frame of any running fallback (no restore) and start a new tween whose
origin is the target's CURRENT transform. -/
def triggerFallbackTween (current : Transform) (direction now : ℚ) : FbTween :=
  { origin := current, direction, startAt := now }

/-- What the `animate` callback of `triggerFallbackTween` writes to the
model at time `now` (up phase 160 ms, down phase 220 ms, then the exact
origin). -/
def fbFrameAt (tw : FbTween) (now : ℚ) : Transform :=
  let elapsed := now - tw.startAt
  let peak := fbPeak tw.origin tw.direction
  if elapsed ≤ 160 then
    let t := easeOutCubic (clampQ (elapsed / 160) 0 1)
    { x := lerp tw.origin.x peak.x t
      y := lerp tw.origin.y peak.y t
      scaleX := lerp tw.origin.scaleX peak.scaleX t
      scaleY := lerp tw.origin.scaleY peak.scaleY t
      rotation := lerp tw.origin.rotation peak.rotation t }
  else if elapsed - 160 ≤ 220 then
    let t := easeInOutQuad (clampQ ((elapsed - 160) / 220) 0 1)
    { x := lerp peak.x tw.origin.x t
      y := lerp peak.y tw.origin.y t
      scaleX := lerp peak.scaleX tw.origin.scaleX t
      scaleY := lerp peak.scaleY tw.origin.scaleY t
      rotation := lerp peak.rotation tw.origin.rotation t }
  else tw.origin

/-! ## Idle gating of the motion engine -/

/-- JS `Math.round`. -/
def jsRound (q : ℚ) : Int := ⌊q + 1/2⌋

/-- `resolveIdleTimeout` of the motion engine: `idleTimeoutMs` clamped
to `[2000, 60000]` and rounded when it is a finite number, else the
8000 ms default. -/
def resolveIdleTimeout (motionMap : List (String × Json)) : Int :=
  match motionMap.lookup "idleTimeoutMs" with
  | some (.num q) => jsRound (clampQ q 2000 60000)
  | _ => 8000

/-- The per-model `EngineState` fields that gate idle dispatch. -/
structure EngineStateM where
  lastInputAt : Int
  lastIdleAt : Int
  idlePlaying : Bool
  disposed : Bool
deriving DecidableEq, Repr

/-- The gate of `maybePlayIdle` of the motion engine: whether the
periodic check at time `now` proceeds to pick and dispatch an idle
motion. -/
def maybePlayIdle (state : EngineStateM) (motionMap : List (String × Json))
    (now : Int) : Bool :=
  if state.disposed || state.idlePlaying then false
  else
    let idleTimeout := resolveIdleTimeout motionMap
    if now - state.lastInputAt < idleTimeout then false
    else if now - state.lastIdleAt < idleTimeout then false
    else true

/-- Modelled from the spec: the idle gate of the unified engine design
(§4.4), whose `intervalMs`-aware variant has no implementation under
src/ (the richer `IdleConfig` is validated but never consumed by an
engine).  Fire only when the elapsed time since `lastInputAt` is at
least `afterMs` and the elapsed time since `lastIdleAt` is at least
`intervalMs` when present, else `afterMs`; skip when disabled, disposed
or mid-idle-dispatch. -/
def specIdleGate (idle : IdleConfig) (disposed idlePlaying : Bool)
    (lastInputAt lastIdleAt now : Int) : Bool :=
  if disposed || idlePlaying then false
  else if !idle.enabled then false
  else
    decide (idle.afterMs ≤ now - lastInputAt ∧
      (idle.intervalMs.getD idle.afterMs) ≤ now - lastIdleAt)

/-! ## Combo detection (spec-modelled) -/

/-- Modelled from the spec: the Combo Detector (§4.3) has no
implementation under src/ (only the `ComboRule` shape and its
validator exist), so the matching test is taken from the spec's words:
the buffer's tail, read most-recent-first, equals the rule's
`sequence` read most-recent-first. -/
def comboTailMatches (rule : ComboRule) (buffer : List (String × Int)) : Bool :=
  rule.sequence.length ≤ buffer.length &&
    (buffer.drop (buffer.length - rule.sequence.length)).map Prod.fst == rule.sequence

/-- Modelled from the spec: the timestamp span between the first and
last matched event of the buffer's tail. -/
def comboSpan (rule : ComboRule) (buffer : List (String × Int)) : Int :=
  let matched := buffer.drop (buffer.length - rule.sequence.length)
  match matched.getLast?, matched.head? with
  | some last, some first => last.2 - first.2
  | _, _ => 0

/-- Modelled from the spec: a rule fires when the tail matches AND the
span is at most `withinMs`. -/
def comboRuleFires (rule : ComboRule) (buffer : List (String × Int)) : Bool :=
  comboTailMatches rule buffer && comboSpan rule buffer ≤ rule.withinMs

/-! ## Frame scheduler (`PetStage` of `src/unnamed/part_000`) -/

/-- The pending-input state of the stage: the bounded discrete-event
queue and the single coalesced pointer-move slot. -/
structure SchedState where
  queue : List InputEvent
  mouse : Option InputEvent
deriving DecidableEq, Repr

/-- The cap of the discrete-event queue in the stage's listener. -/
def queueCap : Nat := 120

/-- The `global-input` listener of the stage: a `MouseMove` overwrites
the coalescing slot; any other event is appended to the queue, the
oldest entry shifted out first when the queue is at its cap. -/
def onGlobalInput (s : SchedState) (e : InputEvent) : SchedState :=
  if e.type = "MouseMove" then { s with mouse := some e }
  else
    { s with queue :=
        (if queueCap ≤ s.queue.length then s.queue.drop 1 else s.queue) ++ [e] }

/-- `flushInputInAnimationFrame` of the stage: handle every queued
discrete event in arrival order, then the single latest pointer-move
sample; both pending stores are left empty. -/
def flushInputInAnimationFrame (s : SchedState) : List InputEvent × SchedState :=
  (s.queue ++ s.mouse.toList, { queue := [], mouse := none })

/-! ## Heap model of `cloneMotionConfig` (clone independence) -/

/-- A mutable JS object that `cloneMotionConfig` must copy rather than
share: a nested action object or a `sequence` array. -/
inductive Cell where
  | act (a : InputAction) : Cell
  | strs (ss : List String) : Cell
deriving DecidableEq, Repr

/-- The heap: cells addressed by position; allocation appends. -/
abbrev Heap := List Cell

/-- A combo rule whose action and sequence are heap references. -/
structure HComboRule where
  id : String
  seq : Nat
  withinMs : Int
  action : Nat
  cooldownMs : Option Int
deriving DecidableEq, Repr

/-- An idle entry whose action is a heap reference. -/
structure HIdleEntry where
  action : Nat
  weight : Option ℚ
deriving DecidableEq, Repr

/-- An idle config whose entries hold heap references. -/
structure HIdleConfig where
  enabled : Bool
  afterMs : Int
  intervalMs : Option Int
  actions : List HIdleEntry
deriving DecidableEq, Repr

/-- A motion config whose nested mutable objects are heap references. -/
structure HMotionConfig where
  keyMap : List (String × Nat)
  comboRules : List HComboRule
  idle : HIdleConfig
deriving DecidableEq, Repr

/-- `cloneAction` at the heap level: read the cell, allocate a fresh
copy, return its address. -/
def cloneActionH (h : Heap) (addr : Nat) : Heap × Nat :=
  match h.get? addr with
  | some (.act a) => (h ++ [.act (cloneAction a)], h.length)
  | _ => (h ++ [.strs []], h.length)

/-- `[...rule.sequence]` at the heap level: a fresh array with the same
strings. -/
def cloneSeqH (h : Heap) (addr : Nat) : Heap × Nat :=
  match h.get? addr with
  | some (.strs ss) => (h ++ [.strs ss], h.length)
  | _ => (h ++ [.strs []], h.length)

/-- The `keyMap` loop of `cloneMotionConfig`, heap level. -/
def cloneKeyMapH (h : Heap) : List (String × Nat) → Heap × List (String × Nat)
  | [] => (h, [])
  | (k, a) :: rest =>
    let p := cloneActionH h a
    let r := cloneKeyMapH p.1 rest
    (r.1, (k, p.2) :: r.2)

/-- The `comboRules.map` of `cloneMotionConfig`, heap level: per rule,
the sequence array is copied, then the action cloned. -/
def cloneRulesH (h : Heap) : List HComboRule → Heap × List HComboRule
  | [] => (h, [])
  | rule :: rest =>
    let ps := cloneSeqH h rule.seq
    let pa := cloneActionH ps.1 rule.action
    let r := cloneRulesH pa.1 rest
    (r.1, { rule with seq := ps.2, action := pa.2 } :: r.2)

/-- The `idle.actions.map` of `cloneMotionConfig`, heap level. -/
def cloneIdleH (h : Heap) : List HIdleEntry → Heap × List HIdleEntry
  | [] => (h, [])
  | entry :: rest =>
    let pa := cloneActionH h entry.action
    let r := cloneIdleH pa.1 rest
    (r.1, { entry with action := pa.2 } :: r.2)

/-- `cloneMotionConfig` at the heap level: every nested action object
and sequence array is freshly allocated. -/
def cloneMotionConfigH (h : Heap) (c : HMotionConfig) : Heap × HMotionConfig :=
  let pk := cloneKeyMapH h c.keyMap
  let pr := cloneRulesH pk.1 c.comboRules
  let pi := cloneIdleH pr.1 c.idle.actions
  (pi.1,
    { keyMap := pk.2
      comboRules := pr.2
      idle := { c.idle with actions := pi.2 } })

/-- Read an action cell. -/
def derefAction (h : Heap) (addr : Nat) : Option InputAction :=
  match h.get? addr with
  | some (.act a) => some a
  | _ => none

/-- Read a sequence cell. -/
def derefSeq (h : Heap) (addr : Nat) : Option (List String) :=
  match h.get? addr with
  | some (.strs ss) => some ss
  | _ => none

/-- Read a heap combo rule into a value. -/
def derefRule (h : Heap) (r : HComboRule) : Option ComboRule :=
  match derefSeq h r.seq, derefAction h r.action with
  | some s, some a => some ⟨r.id, s, r.withinMs, a, r.cooldownMs⟩
  | _, _ => none

/-- Read a heap idle entry into a value. -/
def derefEntry (h : Heap) (e : HIdleEntry) : Option IdleEntry :=
  (derefAction h e.action).map (fun a => { action := a, weight := e.weight })

/-- Read a heap motion config into a value. -/
def derefConfig (h : Heap) (c : HMotionConfig) : Option MotionConfig := do
  let keyMap ← c.keyMap.mapM (fun p => (derefAction h p.2).map (fun a => (p.1, a)))
  let comboRules ← c.comboRules.mapM (derefRule h)
  let actions ← c.idle.actions.mapM (derefEntry h)
  pure ⟨keyMap, comboRules, ⟨c.idle.enabled, c.idle.afterMs, c.idle.intervalMs, actions⟩⟩

/-- Every heap address a config holds. -/
def configAddrs (c : HMotionConfig) : List Nat :=
  c.keyMap.map Prod.snd ++
    (c.comboRules.map (fun r => [r.seq, r.action])).flatten ++
    c.idle.actions.map HIdleEntry.action

/-! ## Auxiliary notions used by the statements and proofs -/

/-- The last `n` entries of a list, in order. -/
def lastN (n : Nat) (xs : List α) : List α := xs.drop (xs.length - n)

/-- How many tween records of a target still drive frames. -/
def countLive (recs : List TweenRec) : Nat := recs.countP (fun r => r.live)

/-- A string that survives a JS trim unchanged and is non-empty: the
shape of every string the validator emits. -/
def TrimmedNE (s : String) : Prop := jsTrim s = s ∧ 0 < s.length

instance (s : String) : Decidable (TrimmedNE s) := by
  unfold TrimmedNE; infer_instance

/-- An optional integer confined to `[lo, hi]`. -/
def OptIntIn (o : Option Int) (lo hi : Int) : Prop :=
  match o with
  | none => True
  | some n => lo ≤ n ∧ n ≤ hi

instance (o : Option Int) (lo hi : Int) : Decidable (OptIntIn o lo hi) := by
  unfold OptIntIn; cases o <;> infer_instance

/-- An optional rational confined to `[lo, hi]`. -/
def OptRatIn (o : Option ℚ) (lo hi : ℚ) : Prop :=
  match o with
  | none => True
  | some q => lo ≤ q ∧ q ≤ hi

instance (o : Option ℚ) (lo hi : ℚ) : Decidable (OptRatIn o lo hi) := by
  unfold OptRatIn; cases o <;> infer_instance

/-- The invariant of every action the validator can emit (`allowCombo`
is whether the context admitted the `combo` variant). -/
def WFaction (allowCombo : Bool) : InputAction → Prop
  | .motion group index priority cooldownMs =>
    TrimmedNE group ∧ OptIntIn index 0 1024 ∧ OptIntIn priority 0 10 ∧
      OptIntIn cooldownMs 0 60000
  | .expression name cooldownMs =>
    TrimmedNE name ∧ OptIntIn cooldownMs 0 60000
  | .tween _ strength cooldownMs =>
    OptRatIn strength (1/20) 3 ∧ OptIntIn cooldownMs 0 60000
  | .combo ruleId cooldownMs =>
    allowCombo = true ∧ TrimmedNE ruleId ∧ OptIntIn cooldownMs 0 60000

instance (b : Bool) (a : InputAction) : Decidable (WFaction b a) := by
  unfold WFaction; cases a <;> infer_instance

/-- The invariant of every combo rule the validator can emit. -/
def WFrule (r : ComboRule) : Prop :=
  TrimmedNE r.id ∧ 2 ≤ r.sequence.length ∧ (∀ s ∈ r.sequence, TrimmedNE s) ∧
    1 ≤ r.withinMs ∧ r.withinMs ≤ 10000 ∧ WFaction false r.action ∧
    OptIntIn r.cooldownMs 0 60000

instance (r : ComboRule) : Decidable (WFrule r) := by
  unfold WFrule; infer_instance

/-- The invariant of every idle entry the validator can emit. -/
def WFentry (e : IdleEntry) : Prop :=
  WFaction false e.action ∧ OptRatIn e.weight (1/100) 100

instance (e : IdleEntry) : Decidable (WFentry e) := by
  unfold WFentry; infer_instance

/-- The invariant of every config the validator can emit: well-formed
trimmed keys and actions, distinct keys, distinct rule ids, ranged
numbers, non-empty key map and idle actions. -/
def WFconfig (c : MotionConfig) : Prop :=
  (c.keyMap ≠ [] ∧ (c.keyMap.map Prod.fst).Nodup ∧
      ∀ p ∈ c.keyMap, TrimmedNE p.1 ∧ WFaction true p.2) ∧
    ((c.comboRules.map ComboRule.id).Nodup ∧ ∀ r ∈ c.comboRules, WFrule r) ∧
    (500 ≤ c.idle.afterMs ∧ c.idle.afterMs ≤ 600000 ∧
      OptIntIn c.idle.intervalMs 100 600000 ∧ c.idle.actions ≠ [] ∧
      ∀ e ∈ c.idle.actions, WFentry e)

instance (c : MotionConfig) : Decidable (WFconfig c) := by
  unfold WFconfig; infer_instance

/-! # Theorems -/

/-- C10: the result of `validateMotionConfig` couples its fields:
`ok` is true exactly when the error list is empty, and a value is
present exactly when `ok` is true. -/
theorem validateMotionConfig_ok_iff_no_errors (raw : Json) :
    ((validateMotionConfig raw).ok = true ↔ (validateMotionConfig raw).errors = []) ∧
    ((validateMotionConfig raw).value.isSome = true ↔ (validateMotionConfig raw).ok = true) := by
  cases raw
  case obj fields =>
    simp only [validateMotionConfig]
    split
    next h =>
      rw [List.isEmpty_iff] at h
      simp only [List.append_eq_nil] at h
      obtain ⟨⟨⟨h1, h2⟩, h3⟩, h4⟩ := h
      simp [h1, h2, h3, h4]
    next h =>
      rw [List.isEmpty_iff] at h
      exact ⟨⟨fun habs => by simp at habs, fun heq => absurd heq h⟩, by simp⟩
  all_goals simp [validateMotionConfig]

/-- C3: config validation is a total, pure function of its input:
every JSON-like value is mapped to one structured result, and equal
inputs are mapped to equal results. -/
theorem validateMotionConfig_total_deterministic (x : Json) :
    ∃ r : MotionConfigValidationResult, validateMotionConfig x = r ∧
      ∀ y : Json, y = x → validateMotionConfig y = r :=
  ⟨validateMotionConfig x, rfl, fun _ hy => hy ▸ rfl⟩

/-- C3 witness: the deterministic-result shape at the malformed input
`"oops"` (a bare string instead of an object). -/
theorem validateMotionConfig_total_deterministic_witness :
    ∃ r : MotionConfigValidationResult, validateMotionConfig (.str "oops") = r ∧
      validateMotionConfig (.str "oops") = r :=
  match validateMotionConfig_total_deterministic (.str "oops") with
  | ⟨r, h1, h2⟩ => ⟨r, h1, h2 (.str "oops") rfl⟩

/-- C5: whenever the buffer's tail matches a rule's sequence, the rule
fires exactly when the timestamp span is at most `withinMs`; in
particular a span of exactly `withinMs` fires and a span of
`withinMs + 1` does not. -/
theorem comboRule_fires_iff_span_le (rule : ComboRule) (buffer : List (String × Int))
    (h : comboTailMatches rule buffer = true) :
    (comboRuleFires rule buffer = true ↔ comboSpan rule buffer ≤ rule.withinMs) ∧
    (comboSpan rule buffer = rule.withinMs → comboRuleFires rule buffer = true) ∧
    (comboSpan rule buffer = rule.withinMs + 1 → comboRuleFires rule buffer = false) := by
  have hiff : comboRuleFires rule buffer = true ↔ comboSpan rule buffer ≤ rule.withinMs := by
    simp [comboRuleFires, h]
  refine ⟨hiff, fun he => hiff.mpr (le_of_eq he), fun he => ?_⟩
  rw [Bool.eq_false_iff]
  intro hc
  have := hiff.mp hc
  omega

/-- C5 witness: the default combo rule (`KeyA` then `KeyD` within
250 ms) fires at a span of exactly 250 and not at 251. -/
theorem comboRule_fires_iff_span_le_witness :
    comboRuleFires ⟨"left-right-burst", ["KeyA", "KeyD"], 250,
        .motion "combo_burst" none (some 3) (some 500), some 700⟩
      [("KeyA", 0), ("KeyD", 250)] = true ∧
    comboRuleFires ⟨"left-right-burst", ["KeyA", "KeyD"], 250,
        .motion "combo_burst" none (some 3) (some 500), some 700⟩
      [("KeyA", 0), ("KeyD", 251)] = false :=
  ⟨(comboRule_fires_iff_span_le _ _ (by decide)).2.1 (by decide),
    (comboRule_fires_iff_span_le _ _ (by decide)).2.2 (by decide)⟩

/-- C6: the idle check fires exactly when the engine is not disposed,
not already mid-idle-dispatch, and both elapsed times reach the
resolved timeout; and the spec's `intervalMs`-aware gate (modelled from
the spec, no engine under src/ consumes `intervalMs`) fires exactly
when not disposed, not mid-dispatch, enabled, elapsed input time is at
least `afterMs` and elapsed idle time at least `intervalMs` when
present, else `afterMs`. -/
theorem maybePlayIdle_gate_iff (state : EngineStateM)
    (motionMap : List (String × Json)) (now : Int) (idle : IdleConfig)
    (disposed idlePlaying : Bool) (lastInputAt lastIdleAt : Int) :
    (maybePlayIdle state motionMap now = true ↔
      state.disposed = false ∧ state.idlePlaying = false ∧
        resolveIdleTimeout motionMap ≤ now - state.lastInputAt ∧
        resolveIdleTimeout motionMap ≤ now - state.lastIdleAt) ∧
    (specIdleGate idle disposed idlePlaying lastInputAt lastIdleAt now = true ↔
      disposed = false ∧ idlePlaying = false ∧ idle.enabled = true ∧
        idle.afterMs ≤ now - lastInputAt ∧
        idle.intervalMs.getD idle.afterMs ≤ now - lastIdleAt) := by
  constructor
  · unfold maybePlayIdle
    cases hd : state.disposed <;> cases hp : state.idlePlaying <;> simp [hd, hp]
  · unfold specIdleGate
    cases hd : disposed <;> cases hp : idlePlaying <;> simp [hd, hp]

/-- C7: every tween preset returns exactly the original transform at
normalized progress 0 and 1, for every strength value, and the
strength multiplier used by `applyTweenPreset` is clamped to
`[0.05, 3]`. -/
theorem applyFrame_endpoints_exact (preset : TweenPreset) (strength : ℝ)
    (origin : TweenFrame) :
    applyFrame preset 0 strength origin = origin ∧
    applyFrame preset 1 strength origin = origin ∧
    (0.05 : ℝ) ≤ clampR strength 0.05 3 ∧ clampR strength 0.05 3 ≤ 3 := by
  refine ⟨?_, ?_, ?_, ?_⟩
  · cases preset <;> cases origin <;>
      simp [applyFrame, Real.sin_zero, TweenFrame.mk.injEq]
  · cases preset <;> cases origin <;>
      simp [applyFrame, Real.sin_pi, TweenFrame.mk.injEq]
  · exact le_min (by norm_num) (le_max_left _ _)
  · exact min_le_left _ _

/-- C1: every way a Motion dispatch can fail — no mapping for the
input, the runtime call returning false, the runtime call raising —
triggers the fallback tween with a diagnostic reason string; a dispatch
avoids the fallback only when the runtime confirmed the motion; and a
`KeyPress` whose key (such as `KeyZ`) has no binding resolves to no
mapping and starts the fallback. -/
theorem playMotionOrFallback_failure_fallback
    (runtime : String → RuntimeOutcome) (motionMap : List (String × Json))
    (name reason : String) (motionName : Option String) :
    (playMotionOrFallback runtime none reason =
      .fallback (reason ++ " (no mapping)")) ∧
    (runtime name = .notStarted →
      playMotionOrFallback runtime (some name) reason =
        .fallback (reason ++ " (" ++ name ++ " not started)")) ∧
    (runtime name = .raised →
      playMotionOrFallback runtime (some name) reason =
        .fallback (reason ++ " (" ++ name ++ " failed)")) ∧
    ((∃ r, playMotionOrFallback runtime motionName reason = .fallback r) ↔
      ¬∃ n, motionName = some n ∧ runtime n = .started) ∧
    (resolveBindingMotion motionMap "KeyZ" = none →
      handleInput runtime motionMap ⟨"KeyPress", some "KeyZ", none, none, none, none⟩ =
        some (.fallback "keypress:KeyZ (no mapping)")) := by
  refine ⟨rfl, fun h => ?_, fun h => ?_, ?_, fun h => ?_⟩
  · simp [playMotionOrFallback, h]
  · simp [playMotionOrFallback, h]
  · cases motionName with
    | none => simp [playMotionOrFallback]
    | some n =>
      cases hr : runtime n with
      | started => simp [playMotionOrFallback, hr]
      | notStarted => simp [playMotionOrFallback, hr]
      | raised => simp [playMotionOrFallback, hr]
  · have ht : jsTrim "KeyZ" = "KeyZ" := by decide
    simp [handleInput, ht, h, playMotionOrFallback]
    decide

/-- C1 witness: with a runtime that rejects every motion and a map
binding only `KeyA`, a mapped dispatch that returns false falls back
with its reason, and dispatching the unmapped `KeyZ` falls back with a
no-mapping reason. -/
theorem playMotionOrFallback_failure_fallback_witness :
    playMotionOrFallback (fun _ => .notStarted) (some "wave") "idle" =
      .fallback "idle (wave not started)" ∧
    handleInput (fun _ => .notStarted) [("KeyA", .str "tap_left")]
      ⟨"KeyPress", some "KeyZ", none, none, none, none⟩ =
        some (.fallback "keypress:KeyZ (no mapping)") :=
  ⟨(playMotionOrFallback_failure_fallback (fun _ => .notStarted) []
      "wave" "idle" none).2.1 rfl,
    (playMotionOrFallback_failure_fallback (fun _ => .notStarted)
      [("KeyA", .str "tap_left")] "x" "x" none).2.2.2.2 (by decide)⟩

/-- The last `n` entries of a list are at most `n`. -/
theorem lastN_length_le (n : Nat) (xs : List α) : (lastN n xs).length ≤ n := by
  simp only [lastN, List.length_drop]
  omega

/-- Appending to the last `n` entries when fewer than `n` are held. -/
theorem lastN_snoc_lt (n : Nat) (xs : List α) (e : α) (h : xs.length < n) :
    lastN n (xs ++ [e]) = lastN n xs ++ [e] := by
  unfold lastN
  have h1 : xs.length - n = 0 := by omega
  have h2 : xs.length + [e].length - n = 0 := by simp; omega
  rw [List.length_append, h1, h2]
  simp

/-- Appending to the last `n` entries when `n` or more are already
held drops the oldest (`0 < n`). -/
theorem lastN_snoc_ge (n : Nat) (xs : List α) (e : α) (hn : 0 < n)
    (h : n ≤ xs.length) :
    lastN n (xs ++ [e]) = (lastN n xs).drop 1 ++ [e] := by
  unfold lastN
  rw [List.drop_drop, List.length_append]
  have h2 : xs.length + [e].length - n = xs.length - n + 1 := by simp; omega
  rw [h2, List.drop_append_of_le_length (by omega)]

/-- The characterization of the stage's pending-input state after any
arrival sequence: the queue holds the last `queueCap` non-pointer-move
events in arrival order, and the coalescing slot holds the latest
pointer-move sample. -/
theorem schedFold_spec (es : List InputEvent) :
    (es.foldl onGlobalInput ⟨[], none⟩).queue =
        lastN queueCap (es.filter fun e => !(e.type == "MouseMove")) ∧
    (es.foldl onGlobalInput ⟨[], none⟩).mouse =
        (es.filter fun e => e.type == "MouseMove").getLast? := by
  induction es using List.reverseRecOn with
  | nil => exact ⟨rfl, rfl⟩
  | append_singleton es e ih =>
    obtain ⟨ihq, ihm⟩ := ih
    rw [List.foldl_append, List.foldl_cons, List.foldl_nil,
      List.filter_append, List.filter_append]
    rcases hS : es.foldl onGlobalInput ⟨[], none⟩ with ⟨q, m⟩
    rw [hS] at ihq ihm
    simp only at ihq ihm
    by_cases hm : e.type = "MouseMove"
    · have hb : (e.type == "MouseMove") = true := by simp [hm]
      simp only [onGlobalInput, if_pos hm]
      refine ⟨?_, ?_⟩
      · simpa [List.filter_cons, hb] using ihq
      · simp [List.filter_cons, hb]
    · have hb : (e.type == "MouseMove") = false := by simp [hm]
      simp only [onGlobalInput, if_neg hm]
      refine ⟨?_, ?_⟩
      · simp only [List.filter_cons, hb, Bool.not_false, if_true, ite_true,
          List.filter_nil, ihq]
        have hql : (lastN queueCap
            (es.filter fun e => !(e.type == "MouseMove"))).length =
            (es.filter fun e => !(e.type == "MouseMove")).length -
              ((es.filter fun e => !(e.type == "MouseMove")).length - queueCap) := by
          simp [lastN]
        by_cases hlen : queueCap ≤ (es.filter fun e => !(e.type == "MouseMove")).length
        · rw [if_pos (by rw [hql]; omega),
            lastN_snoc_ge _ _ _ (by norm_num [queueCap]) hlen]
        · rw [if_neg (by rw [hql]; omega), lastN_snoc_lt _ _ _ (by omega)]
      · simpa [List.filter_cons, hb] using ihm

/-- C9: for every arrival sequence, the discrete-event queue never
exceeds its cap of 120 and holds the most recent non-pointer-move
events in arrival order (an overflow discards the oldest entry);
pointer-move samples never enter the queue and only the latest is
held; and the per-frame flush handles the queued discrete events in
arrival order, then the single coalesced sample, leaving both stores
empty. -/
theorem frameScheduler_bounded_ordered_coalesced (es : List InputEvent) :
    (es.foldl onGlobalInput ⟨[], none⟩).queue =
        lastN queueCap (es.filter fun e => !(e.type == "MouseMove")) ∧
    (es.foldl onGlobalInput ⟨[], none⟩).queue.length ≤ queueCap ∧
    (es.foldl onGlobalInput ⟨[], none⟩).mouse =
        (es.filter fun e => e.type == "MouseMove").getLast? ∧
    (∀ e ∈ (es.foldl onGlobalInput ⟨[], none⟩).queue, e.type ≠ "MouseMove") ∧
    (∀ s : SchedState, ∀ e : InputEvent,
      s.queue.length = queueCap → e.type ≠ "MouseMove" →
        (onGlobalInput s e).queue = s.queue.drop 1 ++ [e]) ∧
    (flushInputInAnimationFrame (es.foldl onGlobalInput ⟨[], none⟩)).1 =
        (es.foldl onGlobalInput ⟨[], none⟩).queue ++
          (es.foldl onGlobalInput ⟨[], none⟩).mouse.toList ∧
    (flushInputInAnimationFrame (es.foldl onGlobalInput ⟨[], none⟩)).2 =
      ⟨[], none⟩ := by
  obtain ⟨hq, hm⟩ := schedFold_spec es
  refine ⟨hq, ?_, hm, ?_, ?_, rfl, rfl⟩
  · rw [hq]; exact lastN_length_le _ _
  · intro e he
    rw [hq] at he
    have : e ∈ es.filter fun e => !(e.type == "MouseMove") :=
      List.drop_subset _ _ he
    have := (List.mem_filter.mp this).2
    simpa using this
  · intro s e hlen hne
    simp [onGlobalInput, hne, hlen]

/-- C9 witness: a full queue of 120 key presses receiving one more
discrete event drops the oldest entry and appends the new one. -/
theorem frameScheduler_bounded_ordered_coalesced_witness :
    (onGlobalInput
        ⟨List.replicate 120 ⟨"KeyPress", some "KeyA", none, none, none, none⟩, none⟩
        ⟨"ButtonPress", none, some "Left", none, none, none⟩).queue =
      (List.replicate 120
          (⟨"KeyPress", some "KeyA", none, none, none, none⟩ : InputEvent)).drop 1 ++
        [⟨"ButtonPress", none, some "Left", none, none, none⟩] :=
  (frameScheduler_bounded_ordered_coalesced []).2.2.2.2.1
    ⟨List.replicate 120 ⟨"KeyPress", some "KeyA", none, none, none, none⟩, none⟩
    ⟨"ButtonPress", none, some "Left", none, none, none⟩
    (by simp [queueCap]) (by decide)

/-- `cloneAction` copies every field: the clone equals the original. -/
theorem cloneAction_id (a : InputAction) : cloneAction a = a := by
  cases a <;> rfl

unseal Rat.sub Rat.mul Rat.add Rat.inv in
/-- C2 counterexample: in the wired motion engine, superseding a
fallback tween mid-flight does NOT restore the original transform —
the new tween's origin is the intermediate transform reached at 80 ms,
and after the second tween completes the transform equals that
intermediate value, not the true original. -/
theorem triggerFallbackTween_supersede_not_restored :
    (fbFrameAt (triggerFallbackTween ⟨0, 0, 1, 1, 0⟩ 1 0) 80 ≠
      (⟨0, 0, 1, 1, 0⟩ : Transform)) ∧
    ((triggerFallbackTween
        (fbFrameAt (triggerFallbackTween ⟨0, 0, 1, 1, 0⟩ 1 0) 80) 1 80).origin =
      fbFrameAt (triggerFallbackTween ⟨0, 0, 1, 1, 0⟩ 1 0) 80) ∧
    (fbFrameAt (triggerFallbackTween
        (fbFrameAt (triggerFallbackTween ⟨0, 0, 1, 1, 0⟩ 1 0) 80) 1 80) 500 =
      fbFrameAt (triggerFallbackTween ⟨0, 0, 1, 1, 0⟩ 1 0) 80) ∧
    (fbFrameAt (triggerFallbackTween
        (fbFrameAt (triggerFallbackTween ⟨0, 0, 1, 1, 0⟩ 1 0) 80) 1 80) 500 ≠
      (⟨0, 0, 1, 1, 0⟩ : Transform)) := by
  decide

/-- Ticking in-flight frames never changes the record list or the
`activeTweens` slot, only the written transform. -/
theorem tweenRunFrames_preserves (fs : List (Nat × Transform)) (s : TweenSys) :
    (tweenRunFrames s fs).recs = s.recs ∧ (tweenRunFrames s fs).slot = s.slot := by
  induction fs generalizing s with
  | nil => exact ⟨rfl, rfl⟩
  | cons p fs ih =>
    obtain ⟨i, f⟩ := p
    have hstep : (tweenTickFrame s i f).recs = s.recs ∧
        (tweenTickFrame s i f).slot = s.slot := by
      unfold tweenTickFrame
      cases s.recs.get? i with
      | none => exact ⟨rfl, rfl⟩
      | some r => by_cases hr : r.live <;> simp [hr]
    show (tweenRunFrames (tweenTickFrame s i f) fs).recs = s.recs ∧
      (tweenRunFrames (tweenTickFrame s i f) fs).slot = s.slot
    obtain ⟨h1, h2⟩ := ih (tweenTickFrame s i f)
    exact ⟨h1.trans hstep.1, h2.trans hstep.2⟩

/-- Setting the appended element of a snoc list. -/
theorem set_concat_length (l : List α) (a b : α) :
    (l ++ [a]).set l.length b = l ++ [b] := by
  induction l with
  | nil => rfl
  | cons x xs ih => simpa using ih

/-- C2 (amended): in the `applyTweenPreset` engine, starting a new
tween while one is active first cancels it and restores its origin, so
the new tween begins at — and captures as its own origin — the true
original transform; at most one tween record is live per target at any
time; and completing the second tween writes back exactly the true
original transform. -/
theorem applyTweenPreset_cancel_restore (T0 : Transform) (recs0 : List TweenRec)
    (h0 : ∀ r ∈ recs0, r.live = false) (fs1 fs2 : List (Nat × Transform)) :
    let s1 := tweenRunFrames (applyTweenPresetStart ⟨T0, recs0, none⟩) fs1
    let s2 := applyTweenPresetStart s1
    let s3 := tweenRunFrames s2 fs2
    s2.transform = T0 ∧
    (∃ i r, s2.slot = some i ∧ s2.recs.get? i = some r ∧
      r.origin = T0 ∧ r.live = true) ∧
    countLive s1.recs ≤ 1 ∧ countLive s2.recs ≤ 1 ∧
    (∀ i, s3.slot = some i → (tweenTickComplete s3 i).transform = T0) := by
  intro s1 s2 s3
  have hstart : applyTweenPresetStart ⟨T0, recs0, none⟩ =
      ⟨T0, recs0 ++ [⟨T0, false, false⟩], some recs0.length⟩ := rfl
  obtain ⟨hr1, hsl1⟩ :=
    tweenRunFrames_preserves fs1 (applyTweenPresetStart ⟨T0, recs0, none⟩)
  have hrecs1 : s1.recs = recs0 ++ [⟨T0, false, false⟩] := by
    rw [show s1 = tweenRunFrames (applyTweenPresetStart ⟨T0, recs0, none⟩) fs1 from rfl,
      hr1, hstart]
  have hslot1 : s1.slot = some recs0.length := by
    rw [show s1 = tweenRunFrames (applyTweenPresetStart ⟨T0, recs0, none⟩) fs1 from rfl,
      hsl1, hstart]
  have hcancel : cancelActiveTween s1 =
      ⟨T0, recs0 ++ [⟨T0, true, false⟩], none⟩ := by
    unfold cancelActiveTween
    rw [hslot1]
    simp only [hrecs1, List.get?_concat_length, set_concat_length]
  have hcount0 : List.countP (fun r => r.live) recs0 = 0 := by
    rw [List.countP_eq_zero]
    intro r hr
    simp [h0 r hr]
  have hs2 : s2 = ⟨T0, recs0 ++ [⟨T0, true, false⟩] ++ [⟨T0, false, false⟩],
      some (recs0 ++ [(⟨T0, true, false⟩ : TweenRec)]).length⟩ := by
    show applyTweenPresetStart s1 = _
    unfold applyTweenPresetStart
    rw [hcancel]
  obtain ⟨hr3, hsl3⟩ := tweenRunFrames_preserves fs2 s2
  refine ⟨by rw [hs2], ⟨(recs0 ++ [(⟨T0, true, false⟩ : TweenRec)]).length,
      ⟨T0, false, false⟩, by rw [hs2], ?_, rfl, rfl⟩, ?_, ?_, ?_⟩
  · rw [hs2]
    exact List.get?_concat_length _ _
  · rw [hrecs1]
    show List.countP (fun r => r.live) (recs0 ++ [⟨T0, false, false⟩]) ≤ 1
    rw [List.countP_append, hcount0]
    simp [List.countP_cons, TweenRec.live]
  · rw [hs2]
    show List.countP (fun r => r.live)
      (recs0 ++ [⟨T0, true, false⟩] ++ [⟨T0, false, false⟩]) ≤ 1
    rw [List.countP_append, List.countP_append, hcount0]
    simp [List.countP_cons, TweenRec.live]
  · intro i hi
    rw [hsl3, hs2] at hi
    have hieq : i = (recs0 ++ [(⟨T0, true, false⟩ : TweenRec)]).length := by
      injection hi with h
      exact h.symm
    subst hieq
    have hget : s3.recs.get? (recs0 ++ [(⟨T0, true, false⟩ : TweenRec)]).length =
        some ⟨T0, false, false⟩ := by
      rw [hr3, hs2]
      exact List.get?_concat_length _ _
    unfold tweenTickComplete
    rw [hget]
    simp [TweenRec.live]

/-- C2 (amended) witness: a single mid-flight frame between the two
starts; the second start begins at the original transform. -/
theorem applyTweenPreset_cancel_restore_witness :
    (applyTweenPresetStart (tweenRunFrames
        (applyTweenPresetStart ⟨⟨0, 0, 1, 1, 0⟩, [], none⟩)
        [(0, ⟨5, 5, 1, 1, 0⟩)])).transform = (⟨0, 0, 1, 1, 0⟩ : Transform) :=
  (applyTweenPreset_cancel_restore ⟨0, 0, 1, 1, 0⟩ [] (by simp)
    [(0, ⟨5, 5, 1, 1, 0⟩)] []).1

/-- A successful action read pins the address below the heap length. -/
theorem derefAction_lt (h : Heap) (a : Nat) (hs : (derefAction h a).isSome = true) :
    a < h.length := by
  unfold derefAction at hs
  cases hg : h.get? a with
  | none => rw [hg] at hs; cases hs
  | some cell => exact (List.get?_eq_some.mp hg).1

/-- A successful sequence read pins the address below the heap length. -/
theorem derefSeq_lt (h : Heap) (a : Nat) (hs : (derefSeq h a).isSome = true) :
    a < h.length := by
  unfold derefSeq at hs
  cases hg : h.get? a with
  | none => rw [hg] at hs; cases hs
  | some cell => exact (List.get?_eq_some.mp hg).1

/-- Extending the heap preserves a successful action read. -/
theorem derefAction_mono (h ext : Heap) (a : Nat)
    (hs : (derefAction h a).isSome = true) :
    derefAction (h ++ ext) a = derefAction h a := by
  have hlt := derefAction_lt h a hs
  unfold derefAction
  rw [List.get?_append hlt]

/-- Extending the heap preserves a successful sequence read. -/
theorem derefSeq_mono (h ext : Heap) (a : Nat)
    (hs : (derefSeq h a).isSome = true) :
    derefSeq (h ++ ext) a = derefSeq h a := by
  have hlt := derefSeq_lt h a hs
  unfold derefSeq
  rw [List.get?_append hlt]

/-- `mapM` over `Option` only looks at the function on the members. -/
theorem mapM_option_congr (l : List α) (f g : α → Option β)
    (h : ∀ x ∈ l, f x = g x) : l.mapM f = l.mapM g := by
  induction l with
  | nil => rfl
  | cons x xs ih =>
    rw [List.mapM_cons, List.mapM_cons, h x (List.mem_cons_self _ _),
      ih (fun y hy => h y (List.mem_cons_of_mem _ hy))]

/-- What `cloneActionH` does: it allocates exactly one new cell at the
end of the heap, a faithful copy whenever the source address holds an
action. -/
theorem cloneActionH_spec (h : Heap) (a : Nat) :
    ∃ c : Cell, cloneActionH h a = (h ++ [c], h.length) ∧
      ∀ x, derefAction h a = some x → c = .act x := by
  unfold cloneActionH derefAction
  cases hg : h.get? a with
  | none => exact ⟨.strs [], rfl, by simp⟩
  | some cell =>
    cases cell with
    | act y =>
      refine ⟨.act (cloneAction y), rfl, fun x hx => ?_⟩
      simp only [Option.some.injEq] at hx
      rw [cloneAction_id, hx]
    | strs ss => exact ⟨.strs [], rfl, by simp⟩

/-- What `cloneSeqH` does: one fresh cell, a copy of the array when
the source address holds one. -/
theorem cloneSeqH_spec (h : Heap) (a : Nat) :
    ∃ c : Cell, cloneSeqH h a = (h ++ [c], h.length) ∧
      ∀ ss, derefSeq h a = some ss → c = .strs ss := by
  unfold cloneSeqH derefSeq
  cases hg : h.get? a with
  | none => exact ⟨.strs [], rfl, by simp⟩
  | some cell =>
    cases cell with
    | act y => exact ⟨.strs [], rfl, by simp⟩
    | strs ss =>
      refine ⟨.strs ss, rfl, fun ss' hss => ?_⟩
      simp only [Option.some.injEq] at hss
      rw [hss]

/-- Reading a freshly allocated cell in any further extension. -/
theorem get?_alloc (h : Heap) (c : Cell) (e2 : Heap) :
    ((h ++ [c]) ++ e2).get? h.length = some c := by
  rw [List.get?_append (by simp), List.get?_concat_length]

/-- Reading a freshly allocated cell under two further extensions. -/
theorem get?_alloc2 (h : Heap) (c : Cell) (ext e2 : Heap) :
    (((h ++ [c]) ++ ext) ++ e2).get? h.length = some c := by
  rw [List.get?_append (by simp), List.get?_append (by simp),
    List.get?_concat_length]

/-- The `keyMap` clone loop: the heap only grows, every clone address
is fresh, and in any further extension of the resulting heap the
cloned entries read back exactly as the originals did. -/
theorem cloneKeyMapH_spec (l : List (String × Nat)) : ∀ h : Heap,
    (∃ ext, (cloneKeyMapH h l).1 = h ++ ext) ∧
    (∀ p ∈ (cloneKeyMapH h l).2, h.length ≤ p.2) ∧
    (∀ hF, (∃ e2, hF = (cloneKeyMapH h l).1 ++ e2) →
      (∀ p ∈ l, (derefAction h p.2).isSome = true) →
      (cloneKeyMapH h l).2.mapM
          (fun p => (derefAction hF p.2).map (fun a => (p.1, a))) =
        l.mapM (fun p => (derefAction h p.2).map (fun a => (p.1, a)))) := by
  induction l with
  | nil =>
    intro h
    exact ⟨⟨[], by simp [cloneKeyMapH]⟩, by simp [cloneKeyMapH],
      fun _ _ _ => rfl⟩
  | cons p rest ih =>
    intro h
    obtain ⟨k, a⟩ := p
    obtain ⟨c, hc, hcd⟩ := cloneActionH_spec h a
    have hcl : cloneKeyMapH h ((k, a) :: rest) =
        ((cloneKeyMapH (h ++ [c]) rest).1,
          (k, h.length) :: (cloneKeyMapH (h ++ [c]) rest).2) := by
      simp only [cloneKeyMapH, hc]
    obtain ⟨⟨ext, hext⟩, hfresh, hderef⟩ := ih (h ++ [c])
    refine ⟨⟨[c] ++ ext, by rw [hcl, hext, List.append_assoc]⟩, ?_, ?_⟩
    · intro q hq
      rw [hcl] at hq
      rcases List.mem_cons.mp hq with hq | hq
      · rw [hq]
      · have := hfresh q hq
        simp only [List.length_append, List.length_singleton] at this
        omega
    · intro hF ⟨e2, he2⟩ hall
      rw [hcl]
      rw [hcl] at he2
      rw [List.mapM_cons, List.mapM_cons]
      have hFeq : hF = ((h ++ [c]) ++ ext) ++ e2 := by rw [he2, hext]
      have ha : derefAction hF h.length = derefAction h a := by
        have hs := hall (k, a) (List.mem_cons_self _ _)
        unfold derefAction at hs ⊢
        cases hg : h.get? a with
        | none => rw [hg] at hs; simp at hs
        | some cell =>
          rw [hg] at hs
          cases cell with
          | act x =>
            have hcx : c = .act x := hcd x (by unfold derefAction; rw [hg])
            rw [hFeq, get?_alloc2, hcx]
          | strs ss => simp at hs
      rw [ha]
      have hrest : rest.mapM (fun p => (derefAction (h ++ [c]) p.2).map
          (fun a => (p.1, a))) =
          rest.mapM (fun p => (derefAction h p.2).map (fun a => (p.1, a))) :=
        mapM_option_congr _ _ _ (fun q hq => by
          rw [derefAction_mono h [c] q.2 (hall q (List.mem_cons_of_mem _ hq))])
      rw [hderef hF ⟨e2, he2⟩ (fun q hq => by
        rw [derefAction_mono h [c] q.2 (hall q (List.mem_cons_of_mem _ hq))]
        exact hall q (List.mem_cons_of_mem _ hq)), hrest]

/-- Reading below a heap prefix ignores the extension. -/
theorem get?_left_part (h hF : Heap) (a : Nat) (ha : a < h.length)
    (hpre : ∃ e, hF = h ++ e) : hF.get? a = h.get? a := by
  obtain ⟨e, he⟩ := hpre
  rw [he, List.get?_append ha]

/-- Extending the heap preserves a rule whose parts read back. -/
theorem derefRule_mono (h e : Heap) (r : HComboRule)
    (h1 : (derefSeq h r.seq).isSome = true)
    (h2 : (derefAction h r.action).isSome = true) :
    derefRule (h ++ e) r = derefRule h r := by
  unfold derefRule
  rw [derefSeq_mono h e _ h1, derefAction_mono h e _ h2]

/-- Extending the heap preserves an idle entry that reads back. -/
theorem derefEntry_mono (h e : Heap) (x : HIdleEntry)
    (h1 : (derefAction h x.action).isSome = true) :
    derefEntry (h ++ e) x = derefEntry h x := by
  unfold derefEntry
  rw [derefAction_mono h e _ h1]

/-- The `comboRules` clone loop: the heap only grows, the copied
sequence array and cloned action of every rule live at fresh
addresses, and in any further extension the cloned rules read back
exactly as the originals did. -/
theorem cloneRulesH_spec (l : List HComboRule) : ∀ h : Heap,
    (∃ ext, (cloneRulesH h l).1 = h ++ ext) ∧
    (∀ r' ∈ (cloneRulesH h l).2, h.length ≤ r'.seq ∧ h.length ≤ r'.action) ∧
    (∀ hF, (∃ e2, hF = (cloneRulesH h l).1 ++ e2) →
      (∀ r ∈ l, (derefSeq h r.seq).isSome = true ∧
        (derefAction h r.action).isSome = true) →
      (cloneRulesH h l).2.mapM (derefRule hF) = l.mapM (derefRule h)) := by
  induction l with
  | nil =>
    intro h
    exact ⟨⟨[], by simp [cloneRulesH]⟩, by simp [cloneRulesH], fun _ _ _ => rfl⟩
  | cons rule rest ih =>
    intro h
    obtain ⟨cs, hcs, hcsd⟩ := cloneSeqH_spec h rule.seq
    obtain ⟨ca, hca, hcad⟩ := cloneActionH_spec (h ++ [cs]) rule.action
    have hcl : cloneRulesH h (rule :: rest) =
        ((cloneRulesH ((h ++ [cs]) ++ [ca]) rest).1,
          { rule with seq := h.length, action := (h ++ [cs]).length } ::
            (cloneRulesH ((h ++ [cs]) ++ [ca]) rest).2) := by
      simp only [cloneRulesH, hcs, hca]
    obtain ⟨⟨ext, hext⟩, hfresh, hderef⟩ := ih ((h ++ [cs]) ++ [ca])
    refine ⟨⟨[cs] ++ [ca] ++ ext, by
      rw [hcl, hext]; simp [List.append_assoc]⟩, ?_, ?_⟩
    · intro r' hr'
      rw [hcl] at hr'
      rcases List.mem_cons.mp hr' with hr' | hr'
      · rw [hr']
        refine ⟨le_refl _, ?_⟩
        simp
      · have := hfresh r' hr'
        simp only [List.length_append, List.length_singleton] at this
        omega
    · intro hF ⟨e2, he2⟩ hall
      rw [hcl]
      rw [hcl] at he2
      rw [List.mapM_cons, List.mapM_cons]
      obtain ⟨hseq, hact⟩ := hall rule (List.mem_cons_self _ _)
      have hF1 : ∃ e, hF = (h ++ [cs]) ++ e := by
        refine ⟨[ca] ++ ext ++ e2, ?_⟩
        rw [he2, hext]
        simp [List.append_assoc]
      have hF2 : ∃ e, hF = ((h ++ [cs]) ++ [ca]) ++ e := by
        refine ⟨ext ++ e2, ?_⟩
        rw [he2, hext]
        simp [List.append_assoc]
      have hr' : derefRule hF
          { rule with seq := h.length, action := (h ++ [cs]).length } =
          derefRule h rule := by
        have hs1 : derefSeq hF h.length = derefSeq h rule.seq := by
          cases hgx : derefSeq h rule.seq with
          | none => rw [hgx] at hseq; simp at hseq
          | some ss =>
            have hcx : cs = .strs ss := hcsd ss hgx
            unfold derefSeq
            rw [get?_left_part (h ++ [cs]) hF h.length (by simp) hF1,
              List.get?_concat_length, hcx]
        have hs2 : derefAction hF (h ++ [cs]).length =
            derefAction h rule.action := by
          have hact' : derefAction (h ++ [cs]) rule.action =
              derefAction h rule.action := derefAction_mono h [cs] _ hact
          cases hgx : derefAction h rule.action with
          | none => rw [hgx] at hact; simp at hact
          | some x =>
            have hcx : ca = .act x := hcad x (by rw [hact', hgx])
            unfold derefAction
            rw [get?_left_part ((h ++ [cs]) ++ [ca]) hF (h ++ [cs]).length
              (by simp) hF2, List.get?_concat_length, hcx]
        unfold derefRule
        rw [hs1, hs2]
      rw [hr']
      have hrest : rest.mapM (derefRule ((h ++ [cs]) ++ [ca])) =
          rest.mapM (derefRule h) :=
        mapM_option_congr _ _ _ (fun r hr => by
          rw [List.append_assoc]
          exact derefRule_mono h ([cs] ++ [ca]) r
            (hall r (List.mem_cons_of_mem _ hr)).1
            (hall r (List.mem_cons_of_mem _ hr)).2)
      rw [hderef hF ⟨e2, he2⟩ (fun r hr => by
        rw [List.append_assoc, derefSeq_mono h ([cs] ++ [ca]) _
            (hall r (List.mem_cons_of_mem _ hr)).1,
          derefAction_mono h ([cs] ++ [ca]) _
            (hall r (List.mem_cons_of_mem _ hr)).2]
        exact hall r (List.mem_cons_of_mem _ hr)), hrest]

/-- The `idle.actions` clone loop: fresh addresses only, and cloned
entries read back exactly as the originals. -/
theorem cloneIdleH_spec (l : List HIdleEntry) : ∀ h : Heap,
    (∃ ext, (cloneIdleH h l).1 = h ++ ext) ∧
    (∀ e' ∈ (cloneIdleH h l).2, h.length ≤ e'.action) ∧
    (∀ hF, (∃ e2, hF = (cloneIdleH h l).1 ++ e2) →
      (∀ e ∈ l, (derefAction h e.action).isSome = true) →
      (cloneIdleH h l).2.mapM (derefEntry hF) = l.mapM (derefEntry h)) := by
  induction l with
  | nil =>
    intro h
    exact ⟨⟨[], by simp [cloneIdleH]⟩, by simp [cloneIdleH], fun _ _ _ => rfl⟩
  | cons entry rest ih =>
    intro h
    obtain ⟨c, hc, hcd⟩ := cloneActionH_spec h entry.action
    have hcl : cloneIdleH h (entry :: rest) =
        ((cloneIdleH (h ++ [c]) rest).1,
          { entry with action := h.length } :: (cloneIdleH (h ++ [c]) rest).2) := by
      simp only [cloneIdleH, hc]
    obtain ⟨⟨ext, hext⟩, hfresh, hderef⟩ := ih (h ++ [c])
    refine ⟨⟨[c] ++ ext, by rw [hcl, hext, List.append_assoc]⟩, ?_, ?_⟩
    · intro e' he'
      rw [hcl] at he'
      rcases List.mem_cons.mp he' with he' | he'
      · rw [he']
      · have := hfresh e' he'
        simp only [List.length_append, List.length_singleton] at this
        omega
    · intro hF ⟨e2, he2⟩ hall
      rw [hcl]
      rw [hcl] at he2
      rw [List.mapM_cons, List.mapM_cons]
      have hFeq : hF = ((h ++ [c]) ++ ext) ++ e2 := by rw [he2, hext]
      have he' : derefEntry hF { entry with action := h.length } =
          derefEntry h entry := by
        unfold derefEntry
        have ha : derefAction hF h.length = derefAction h entry.action := by
          cases hgx : derefAction h entry.action with
          | none =>
            have := hall entry (List.mem_cons_self _ _)
            rw [hgx] at this
            simp at this
          | some x =>
            have hcx : c = .act x := hcd x hgx
            unfold derefAction
            rw [hFeq, get?_alloc2, hcx]
        rw [ha]
      rw [he']
      have hrest : rest.mapM (derefEntry (h ++ [c])) = rest.mapM (derefEntry h) :=
        mapM_option_congr _ _ _ (fun e he =>
          derefEntry_mono h [c] e (hall e (List.mem_cons_of_mem _ he)))
      rw [hderef hF ⟨e2, he2⟩ (fun e he => by
        rw [derefAction_mono h [c] e.action (hall e (List.mem_cons_of_mem _ he))]
        exact hall e (List.mem_cons_of_mem _ he)), hrest]

/-- A successful `mapM` over `Option` means every member mapped
successfully. -/
theorem mapM_isSome_mem (l : List α) (f : α → Option β)
    (h : (l.mapM f).isSome = true) : ∀ x ∈ l, (f x).isSome = true := by
  induction l with
  | nil => simp
  | cons x xs ih =>
    rw [List.mapM_cons f] at h
    cases hf : f x with
    | none => rw [hf] at h; simp at h
    | some y =>
      rw [hf] at h
      intro z hz
      rcases List.mem_cons.mp hz with rfl | hz
      · simp [hf]
      · cases hm : xs.mapM f with
        | none => rw [hm] at h; simp at h
        | some ys => exact ih (by rw [hm]; rfl) z hz

/-- A rule that reads back has both parts readable. -/
theorem derefRule_isSome (h : Heap) (r : HComboRule)
    (hs : (derefRule h r).isSome = true) :
    (derefSeq h r.seq).isSome = true ∧ (derefAction h r.action).isSome = true := by
  unfold derefRule at hs
  cases hgs : derefSeq h r.seq with
  | none => rw [hgs] at hs; simp at hs
  | some s =>
    cases hga : derefAction h r.action with
    | none => rw [hgs, hga] at hs; simp at hs
    | some a => simp

/-- A readable config has every nested address readable at its
expected cell kind. -/
theorem derefConfig_parts (h : Heap) (c : HMotionConfig)
    (hs : (derefConfig h c).isSome = true) :
    (∀ p ∈ c.keyMap, (derefAction h p.2).isSome = true) ∧
    (∀ r ∈ c.comboRules, (derefSeq h r.seq).isSome = true ∧
      (derefAction h r.action).isSome = true) ∧
    (∀ e ∈ c.idle.actions, (derefAction h e.action).isSome = true) := by
  unfold derefConfig at hs
  cases h1 : c.keyMap.mapM
      (fun p => (derefAction h p.2).map (fun a => (p.1, a))) with
  | none => rw [h1] at hs; simp at hs
  | some km =>
    rw [h1] at hs
    cases h2 : c.comboRules.mapM (derefRule h) with
    | none => rw [h2] at hs; simp at hs
    | some rs =>
      rw [h2] at hs
      cases h3 : c.idle.actions.mapM (derefEntry h) with
      | none => rw [h3] at hs; simp at hs
      | some acts =>
        refine ⟨fun p hp => ?_, fun r hr => ?_, fun e he => ?_⟩
        · have := mapM_isSome_mem _ _ (by rw [h1]; rfl) p hp
          simpa using this
        · exact derefRule_isSome h r (mapM_isSome_mem _ _ (by rw [h2]; rfl) r hr)
        · have := mapM_isSome_mem _ _ (by rw [h3]; rfl) e he
          unfold derefEntry at this
          simpa using this

/-- Where an address of a config can come from. -/
theorem configAddrs_cases (c : HMotionConfig) (b : Nat)
    (hb : b ∈ configAddrs c) :
    (∃ p ∈ c.keyMap, b = p.2) ∨
      (∃ r ∈ c.comboRules, b = r.seq ∨ b = r.action) ∨
      (∃ e ∈ c.idle.actions, b = e.action) := by
  unfold configAddrs at hb
  rcases List.mem_append.mp hb with hb | hb
  · rcases List.mem_append.mp hb with hb | hb
    · obtain ⟨p, hp, hpe⟩ := List.mem_map.mp hb
      exact Or.inl ⟨p, hp, hpe.symm⟩
    · obtain ⟨blk, hblk, hbin⟩ := List.mem_flatten.mp hb
      obtain ⟨r, hr, hre⟩ := List.mem_map.mp hblk
      rw [← hre] at hbin
      rcases List.mem_cons.mp hbin with hbe | hbin
      · exact Or.inr (Or.inl ⟨r, hr, Or.inl hbe⟩)
      · rcases List.mem_cons.mp hbin with hbe | hbin
        · exact Or.inr (Or.inl ⟨r, hr, Or.inr hbe⟩)
        · cases hbin
  · obtain ⟨e, he, hee⟩ := List.mem_map.mp hb
    exact Or.inr (Or.inr ⟨e, he, hee.symm⟩)

/-- Two heaps that agree on every address a config holds read the
config back identically. -/
theorem derefConfig_congr (h1 h2 : Heap) (c : HMotionConfig)
    (hag : ∀ b ∈ configAddrs c, h1.get? b = h2.get? b) :
    derefConfig h1 c = derefConfig h2 c := by
  have hbmem : ∀ b, (∃ p ∈ c.keyMap, b = p.2) ∨
      (∃ r ∈ c.comboRules, b = r.seq ∨ b = r.action) ∨
      (∃ e ∈ c.idle.actions, b = e.action) → h1.get? b = h2.get? b := by
    intro b hb
    apply hag
    unfold configAddrs
    rcases hb with ⟨p, hp, rfl⟩ | ⟨r, hr, hbe⟩ | ⟨e, he, rfl⟩
    · exact List.mem_append_left _ (List.mem_append_left _
        (List.mem_map_of_mem _ hp))
    · refine List.mem_append_left _ (List.mem_append_right _ ?_)
      refine List.mem_flatten.mpr ⟨[r.seq, r.action], List.mem_map_of_mem _ hr, ?_⟩
      rcases hbe with rfl | rfl <;> simp
    · exact List.mem_append_right _ (List.mem_map_of_mem _ he)
  have hk : c.keyMap.mapM
      (fun p => (derefAction h1 p.2).map (fun a => (p.1, a))) =
      c.keyMap.mapM (fun p => (derefAction h2 p.2).map (fun a => (p.1, a))) :=
    mapM_option_congr _ _ _ (fun p hp => by
      unfold derefAction
      rw [hbmem p.2 (Or.inl ⟨p, hp, rfl⟩)])
  have hr : c.comboRules.mapM (derefRule h1) = c.comboRules.mapM (derefRule h2) :=
    mapM_option_congr _ _ _ (fun r hr => by
      unfold derefRule derefSeq derefAction
      rw [hbmem r.seq (Or.inr (Or.inl ⟨r, hr, Or.inl rfl⟩)),
        hbmem r.action (Or.inr (Or.inl ⟨r, hr, Or.inr rfl⟩))])
  have hi : c.idle.actions.mapM (derefEntry h1) =
      c.idle.actions.mapM (derefEntry h2) :=
    mapM_option_congr _ _ _ (fun e he => by
      unfold derefEntry derefAction
      rw [hbmem e.action (Or.inr (Or.inr ⟨e, he, rfl⟩))])
  unfold derefConfig
  rw [hk, hr, hi]

/-- C8: `cloneMotionConfig` at the heap level is a deep clone.  For
every readable config, the clone reads back to the same value as the
original (structural equality), the original stays intact in the
extended heap, every nested action object and sequence array of the
clone is a fresh cell, and overwriting any such cell of the clone —
mutating any nested object — never changes what the original config
reads back to. -/
theorem cloneMotionConfigH_deep_independent (h : Heap) (c : HMotionConfig)
    (hwf : (derefConfig h c).isSome = true) :
    derefConfig (cloneMotionConfigH h c).1 (cloneMotionConfigH h c).2 =
      derefConfig h c ∧
    derefConfig (cloneMotionConfigH h c).1 c = derefConfig h c ∧
    (∀ a ∈ configAddrs (cloneMotionConfigH h c).2, h.length ≤ a) ∧
    (∀ a ∈ configAddrs (cloneMotionConfigH h c).2, ∀ v : Cell,
      derefConfig ((cloneMotionConfigH h c).1.set a v) c = derefConfig h c) := by
  obtain ⟨hkS, hrS, heS⟩ := derefConfig_parts h c hwf
  obtain ⟨⟨e1, he1⟩, hkFresh, hkDeref⟩ := cloneKeyMapH_spec c.keyMap h
  obtain ⟨⟨e2, he2⟩, hrFresh, hrDeref⟩ :=
    cloneRulesH_spec c.comboRules (cloneKeyMapH h c.keyMap).1
  obtain ⟨⟨e3, he3⟩, heFresh, heDeref⟩ :=
    cloneIdleH_spec c.idle.actions
      (cloneRulesH (cloneKeyMapH h c.keyMap).1 c.comboRules).1
  have hclone : cloneMotionConfigH h c =
      ((cloneIdleH (cloneRulesH (cloneKeyMapH h c.keyMap).1 c.comboRules).1
          c.idle.actions).1,
        { keyMap := (cloneKeyMapH h c.keyMap).2
          comboRules := (cloneRulesH (cloneKeyMapH h c.keyMap).1 c.comboRules).2
          idle := { c.idle with actions :=
            (cloneIdleH (cloneRulesH (cloneKeyMapH h c.keyMap).1 c.comboRules).1
              c.idle.actions).2 } }) := rfl
  have hh3ofh : (cloneIdleH (cloneRulesH (cloneKeyMapH h c.keyMap).1
      c.comboRules).1 c.idle.actions).1 = h ++ (e1 ++ (e2 ++ e3)) := by
    rw [he3, he2, he1]
    simp [List.append_assoc]
  have hh3of1 : ∃ e, (cloneIdleH (cloneRulesH (cloneKeyMapH h c.keyMap).1
      c.comboRules).1 c.idle.actions).1 = (cloneKeyMapH h c.keyMap).1 ++ e := by
    refine ⟨e2 ++ e3, ?_⟩
    rw [he3, he2]
    simp [List.append_assoc]
  have hh3of2 : ∃ e, (cloneIdleH (cloneRulesH (cloneKeyMapH h c.keyMap).1
      c.comboRules).1 c.idle.actions).1 =
      (cloneRulesH (cloneKeyMapH h c.keyMap).1 c.comboRules).1 ++ e := ⟨e3, he3⟩
  have hh3of3 : ∃ e, (cloneIdleH (cloneRulesH (cloneKeyMapH h c.keyMap).1
      c.comboRules).1 c.idle.actions).1 =
      (cloneIdleH (cloneRulesH (cloneKeyMapH h c.keyMap).1 c.comboRules).1
        c.idle.actions).1 ++ e := ⟨[], by simp⟩
  have haddr : ∀ b ∈ configAddrs c, b < h.length := by
    intro b hb
    rcases configAddrs_cases c b hb with ⟨p, hp, rfl⟩ | ⟨r, hr, hbe⟩ | ⟨e, he, rfl⟩
    · exact derefAction_lt h _ (hkS p hp)
    · rcases hbe with rfl | rfl
      · exact derefSeq_lt h _ (hrS r hr).1
      · exact derefAction_lt h _ (hrS r hr).2
    · exact derefAction_lt h _ (heS e he)
  have hfreshAll : ∀ a ∈ configAddrs (cloneMotionConfigH h c).2, h.length ≤ a := by
    intro a ha
    rw [hclone] at ha
    rcases configAddrs_cases _ a ha with ⟨p, hp, rfl⟩ | ⟨r, hr, hbe⟩ | ⟨e, he, rfl⟩
    · exact hkFresh p hp
    · have hlen1 : h.length ≤ (cloneKeyMapH h c.keyMap).1.length := by
        rw [he1]; simp
      rcases hbe with rfl | rfl
      · exact le_trans hlen1 (hrFresh r hr).1
      · exact le_trans hlen1 (hrFresh r hr).2
    · have hlen2 : h.length ≤
          (cloneRulesH (cloneKeyMapH h c.keyMap).1 c.comboRules).1.length := by
        rw [he2, he1]; simp
      exact le_trans hlen2 (heFresh e he)
  have hrS1 : ∀ r ∈ c.comboRules,
      (derefSeq (cloneKeyMapH h c.keyMap).1 r.seq).isSome = true ∧
      (derefAction (cloneKeyMapH h c.keyMap).1 r.action).isSome = true := by
    intro r hr
    rw [he1, derefSeq_mono h e1 _ (hrS r hr).1,
      derefAction_mono h e1 _ (hrS r hr).2]
    exact hrS r hr
  have heS2 : ∀ e ∈ c.idle.actions,
      (derefAction (cloneRulesH (cloneKeyMapH h c.keyMap).1 c.comboRules).1
        e.action).isSome = true := by
    intro e he
    rw [he2, he1, List.append_assoc,
      derefAction_mono h (e1 ++ e2) _ (heS e he)]
    exact heS e he
  refine ⟨?_, ?_, hfreshAll, ?_⟩
  · rw [hclone]
    unfold derefConfig
    rw [hkDeref _ hh3of1 hkS, hrDeref _ hh3of2 hrS1, heDeref _ hh3of3 heS2]
    have hrback : c.comboRules.mapM
        (derefRule (cloneKeyMapH h c.keyMap).1) =
        c.comboRules.mapM (derefRule h) :=
      mapM_option_congr _ _ _ (fun r hr => by
        rw [he1]
        exact derefRule_mono h e1 r (hrS r hr).1 (hrS r hr).2)
    have heback : c.idle.actions.mapM
        (derefEntry (cloneRulesH (cloneKeyMapH h c.keyMap).1 c.comboRules).1) =
        c.idle.actions.mapM (derefEntry h) :=
      mapM_option_congr _ _ _ (fun e he => by
        rw [he2, he1, List.append_assoc]
        exact derefEntry_mono h (e1 ++ e2) e (heS e he))
    rw [hrback, heback]
  · apply derefConfig_congr
    intro b hb
    rw [hclone]
    rw [hh3ofh, List.get?_append (haddr b hb)]
  · intro a ha v
    apply derefConfig_congr
    intro b hb
    have hba : b ≠ a := by
      have h1 := haddr b hb
      have h2 := hfreshAll a ha
      omega
    rw [List.get?_set_ne v _ (Ne.symm hba), hclone]
    rw [hh3ofh, List.get?_append (haddr b hb)]

/-- C8 witness: a concrete heap and config; the clone reads back equal
to the original, and overwriting the clone's first fresh cell (address
4) leaves the original's value untouched. -/
theorem cloneMotionConfigH_deep_independent_witness :
    derefConfig
        (cloneMotionConfigH
          [.act (.motion "wave" none none none), .strs ["KeyA", "KeyB"],
            .act (.expression "smile" none), .act (.tween .bounce none none)]
          ⟨[("KeyA", 0)], [⟨"burst", 1, 250, 2, none⟩],
            ⟨true, 8000, none, [⟨3, some 1⟩]⟩⟩).1
        (cloneMotionConfigH
          [.act (.motion "wave" none none none), .strs ["KeyA", "KeyB"],
            .act (.expression "smile" none), .act (.tween .bounce none none)]
          ⟨[("KeyA", 0)], [⟨"burst", 1, 250, 2, none⟩],
            ⟨true, 8000, none, [⟨3, some 1⟩]⟩⟩).2 =
      derefConfig
        [.act (.motion "wave" none none none), .strs ["KeyA", "KeyB"],
          .act (.expression "smile" none), .act (.tween .bounce none none)]
        ⟨[("KeyA", 0)], [⟨"burst", 1, 250, 2, none⟩],
          ⟨true, 8000, none, [⟨3, some 1⟩]⟩⟩ ∧
    derefConfig
        ((cloneMotionConfigH
          [.act (.motion "wave" none none none), .strs ["KeyA", "KeyB"],
            .act (.expression "smile" none), .act (.tween .bounce none none)]
          ⟨[("KeyA", 0)], [⟨"burst", 1, 250, 2, none⟩],
            ⟨true, 8000, none, [⟨3, some 1⟩]⟩⟩).1.set 4
          (.act (.motion "hax" none none none)))
        ⟨[("KeyA", 0)], [⟨"burst", 1, 250, 2, none⟩],
          ⟨true, 8000, none, [⟨3, some 1⟩]⟩⟩ =
      derefConfig
        [.act (.motion "wave" none none none), .strs ["KeyA", "KeyB"],
          .act (.expression "smile" none), .act (.tween .bounce none none)]
        ⟨[("KeyA", 0)], [⟨"burst", 1, 250, 2, none⟩],
          ⟨true, 8000, none, [⟨3, some 1⟩]⟩⟩ :=
  ⟨(cloneMotionConfigH_deep_independent _ _ (by decide)).1,
    (cloneMotionConfigH_deep_independent _ _ (by decide)).2.2.2 4 (by decide)
      (.act (.motion "hax" none none none))⟩

/-! ## Idempotence of the JS trim and the validator roundtrip (C4) -/

/-- The head that survives `dropWhile` fails the predicate. -/
theorem dropWhile_head_not (p : α → Bool) (l : List α) :
    ∀ c, (l.dropWhile p).head? = some c → p c = false := by
  induction l with
  | nil => simp
  | cons x xs ih =>
    intro c hc
    rw [List.dropWhile_cons] at hc
    by_cases hx : p x = true
    · rw [if_pos hx] at hc
      exact ih c hc
    · rw [if_neg hx] at hc
      simp only [List.head?_cons, Option.some.injEq] at hc
      rw [← hc]
      exact Bool.eq_false_iff.mpr hx

/-- `dropWhile` is the identity on a list whose head fails the
predicate. -/
theorem dropWhile_eq_self_of_head (p : α → Bool) (l : List α)
    (h : ∀ c, l.head? = some c → p c = false) : l.dropWhile p = l := by
  cases l with
  | nil => rfl
  | cons x xs =>
    rw [List.dropWhile_cons, if_neg]
    simp [h x rfl]

/-- The last element that survives `dropWhile` is the last of the
input. -/
theorem dropWhile_getLast? (p : α → Bool) (l : List α)
    (h : l.dropWhile p ≠ []) : (l.dropWhile p).getLast? = l.getLast? := by
  obtain ⟨t, ht⟩ := List.dropWhile_suffix (l := l) p
  conv_rhs => rw [← ht]
  rw [List.getLast?_append_of_ne_nil t h]

/-- JS `trim` is idempotent. -/
theorem jsTrim_idem (s : String) : jsTrim (jsTrim s) = jsTrim s := by
  obtain ⟨l⟩ := s
  show jsTrim ⟨((l.dropWhile isJsWs).reverse.dropWhile isJsWs).reverse⟩ =
    ⟨((l.dropWhile isJsWs).reverse.dropWhile isJsWs).reverse⟩
  unfold jsTrim
  have hd2head : ∀ c, ((l.dropWhile isJsWs).reverse.dropWhile isJsWs).head? = some c →
      isJsWs c = false := dropWhile_head_not _ _
  by_cases hnil : (l.dropWhile isJsWs).reverse.dropWhile isJsWs = []
  · rw [hnil]
    rfl
  · have hlast : ((l.dropWhile isJsWs).reverse.dropWhile isJsWs).getLast? =
        (l.dropWhile isJsWs).reverse.getLast? := dropWhile_getLast? _ _ hnil
    have hstep1 : ((l.dropWhile isJsWs).reverse.dropWhile isJsWs).reverse.dropWhile
        isJsWs = ((l.dropWhile isJsWs).reverse.dropWhile isJsWs).reverse := by
      apply dropWhile_eq_self_of_head
      intro c hc
      rw [List.head?_reverse, hlast, List.getLast?_reverse] at hc
      exact dropWhile_head_not _ _ c hc
    rw [hstep1, List.reverse_reverse,
      dropWhile_eq_self_of_head _ _ hd2head]

/-- A trimmed, non-empty string parses back through
`asNonEmptyStr1`. -/
theorem asNonEmptyStr1_of_trimmed (s : String) (h : TrimmedNE s) :
    asNonEmptyStr1 (.str s) = some s := by
  show (if 0 < (jsTrim s).length then some (jsTrim s) else none) = some s
  rw [h.1, if_pos h.2]

/-- Whatever `asNonEmptyStr1` emits is trimmed and non-empty. -/
theorem asNonEmptyStr1_TrimmedNE (v : Json) (s : String)
    (h : asNonEmptyStr1 v = some s) : TrimmedNE s := by
  cases v with
  | str u =>
    have h' : (if 0 < (jsTrim u).length then some (jsTrim u) else none) = some s := h
    by_cases hl : 0 < (jsTrim u).length
    · rw [if_pos hl] at h'
      obtain rfl := Option.some.inj h'
      exact ⟨jsTrim_idem u, hl⟩
    · rw [if_neg hl] at h'
      cases h'
  | null => cases h
  | bool b => cases h
  | num q => cases h
  | arr xs => cases h
  | obj fs => cases h

/-- Whatever `asNonEmptyString` emits is trimmed and non-empty. -/
theorem asNonEmptyString_TrimmedNE (v : Option Json) (s : String)
    (h : asNonEmptyString v = some s) : TrimmedNE s := by
  unfold asNonEmptyString at h
  split at h
  next j => exact asNonEmptyStr1_TrimmedNE j s h
  next => cases h

/-- `asIntegerInRange` only emits integers inside the range. -/
theorem asIntegerInRange_range (v : Option Json) (lo hi n : Int)
    (h : asIntegerInRange v lo hi = some n) : lo ≤ n ∧ n ≤ hi := by
  unfold asIntegerInRange at h
  split at h
  next q =>
    split at h
    next hc =>
      obtain rfl := Option.some.inj h
      exact ⟨hc.2.1, hc.2.2⟩
    next => cases h
  next => cases h

/-- `asNumberInRange` only emits numbers inside the range. -/
theorem asNumberInRange_range (v : Option Json) (lo hi q : ℚ)
    (h : asNumberInRange v lo hi = some q) : lo ≤ q ∧ q ≤ hi := by
  unfold asNumberInRange at h
  split at h
  next q' =>
    split at h
    next hc =>
      obtain rfl := Option.some.inj h
      exact hc
    next => cases h
  next => cases h

/-- `optIntField` only keeps integers inside the range. -/
theorem optIntField_range (v : Option Json) (lo hi : Int) (msg : String) :
    OptIntIn (optIntField v lo hi msg).1 lo hi := by
  unfold optIntField
  split
  next => trivial
  next j =>
    split
    next => trivial
    next n hn => exact asIntegerInRange_range _ lo hi n hn

/-- `optNumField` only keeps numbers inside the range. -/
theorem optNumField_range (v : Option Json) (lo hi : ℚ) (msg : String) :
    OptRatIn (optNumField v lo hi msg).1 lo hi := by
  unfold optNumField
  split
  next => trivial
  next j =>
    split
    next => trivial
    next q hq => exact asNumberInRange_range _ lo hi q hq

/-- `parseCooldown` only keeps cooldowns inside `[0, 60000]`. -/
theorem parseCooldown_range (v : Option Json) (path : String) :
    OptIntIn (parseCooldown v path).1 0 60000 :=
  optIntField_range v 0 60000 _

/-- Every action `parseMotionAction` emits is well-formed. -/
theorem parseMotionAction_WF (fields : List (String × Json)) (path : String)
    (ac : Bool) (a : InputAction)
    (h : (parseMotionAction fields path).1 = some a) : WFaction ac a := by
  unfold parseMotionAction at h
  split at h
  next => cases h
  next group hgroup =>
    obtain rfl := Option.some.inj h
    exact ⟨asNonEmptyString_TrimmedNE _ _ hgroup, optIntField_range _ _ _ _,
      optIntField_range _ _ _ _, parseCooldown_range _ _⟩

/-- Every action `parseTweenAction` emits is well-formed. -/
theorem parseTweenAction_WF (fields : List (String × Json)) (path : String)
    (ac : Bool) (a : InputAction)
    (h : (parseTweenAction fields path).1 = some a) : WFaction ac a := by
  unfold parseTweenAction at h
  dsimp only at h
  repeat' split at h
  all_goals
    first
      | (obtain rfl := Option.some.inj h
         exact ⟨optNumField_range _ _ _ _, parseCooldown_range _ _⟩)
      | cases h

/-- Every action `parseAction` emits is well-formed for its context. -/
theorem parseAction_WF (v : Json) (path : String) (ac : Bool) (a : InputAction)
    (h : (parseAction v path ac).1 = some a) : WFaction ac a := by
  unfold parseAction at h
  split at h
  case _ fields =>
    split at h
    next => cases h
    next kind hkind =>
      split at h
      · exact parseMotionAction_WF fields path ac a h
      · split at h
        · split at h
          next => cases h
          next name hname =>
            obtain rfl := Option.some.inj h
            exact ⟨asNonEmptyString_TrimmedNE _ _ hname, parseCooldown_range _ _⟩
        · split at h
          · exact parseTweenAction_WF fields path ac a h
          · split at h
            · split at h
              next hac => cases h
              next hac =>
                split at h
                next => cases h
                next ruleId hrid =>
                  obtain rfl := Option.some.inj h
                  refine ⟨?_, asNonEmptyString_TrimmedNE _ _ hrid,
                    parseCooldown_range _ _⟩
                  rcases Bool.eq_false_or_eq_true ac with hb | hb
                  · exact hb
                  · rw [hb] at hac
                    exact absurd rfl hac
            · cases h
  case _ => cases h

/-- A negative `contains` check is non-membership. -/
theorem contains_false_not_mem (l : List String) (s : String)
    (h : l.contains s = false) : s ∉ l := by
  intro hm
  rw [← List.elem_iff] at hm
  rw [show l.contains s = l.elem s from rfl, hm] at h
  cases h

/-- The keys of an upsert: unchanged when the key exists, appended
otherwise. -/
theorem upsert_keys (acc : List (String × InputAction)) (k : String)
    (a : InputAction) :
    (upsert acc k a).map Prod.fst =
      if k ∈ acc.map Prod.fst then acc.map Prod.fst
      else acc.map Prod.fst ++ [k] := by
  induction acc with
  | nil => simp [upsert]
  | cons p rest ih =>
    obtain ⟨k', a'⟩ := p
    unfold upsert
    by_cases hk : k' = k
    · subst hk
      simp
    · rw [if_neg hk]
      simp only [List.map_cons, ih]
      by_cases hm : k ∈ rest.map Prod.fst
      · rw [if_pos hm, if_pos (by simp [hm])]
      · have hncons : k ∉ (k' :: rest.map Prod.fst) := by
          simp only [List.mem_cons]
          rintro (h | h)
          · exact hk h.symm
          · exact hm h
        rw [if_neg hm, if_neg hncons]
        simp

/-- Every entry of an upsert is the new pair or an old entry. -/
theorem upsert_mem (acc : List (String × InputAction)) (k : String)
    (a : InputAction) (p : String × InputAction) (hp : p ∈ upsert acc k a) :
    p = (k, a) ∨ p ∈ acc := by
  induction acc with
  | nil => simpa [upsert] using hp
  | cons q rest ih =>
    obtain ⟨k', a'⟩ := q
    unfold upsert at hp
    by_cases hk : k' = k
    · rw [if_pos hk] at hp
      rcases List.mem_cons.mp hp with h | h
      · exact Or.inl h
      · exact Or.inr (List.mem_cons_of_mem _ h)
    · rw [if_neg hk] at hp
      rcases List.mem_cons.mp hp with h | h
      · exact Or.inr (by rw [h]; exact List.mem_cons_self _ _)
      · rcases ih h with h | h
        · exact Or.inl h
        · exact Or.inr (List.mem_cons_of_mem _ h)

/-- The entry loop of `parseKeyMap` keeps the keys distinct and every
entry well-formed. -/
theorem parseKeyMapEntries_WF (fields : List (String × Json)) :
    ∀ acc, (acc.map Prod.fst).Nodup →
    (∀ p ∈ acc, TrimmedNE p.1 ∧ WFaction true p.2) →
    (((parseKeyMapEntries acc fields).1.map Prod.fst).Nodup ∧
      ∀ p ∈ (parseKeyMapEntries acc fields).1,
        TrimmedNE p.1 ∧ WFaction true p.2) := by
  induction fields with
  | nil => intro acc h1 h2; exact ⟨h1, h2⟩
  | cons f rest ih =>
    intro acc h1 h2
    obtain ⟨k, v⟩ := f
    unfold parseKeyMapEntries
    dsimp only
    split
    next hkey => exact ih acc h1 h2
    next hkey =>
      split
      next e1 hpa => exact ih acc h1 h2
      next a e1 hpa =>
        have hWFa : WFaction true a :=
          parseAction_WF v ("keyMap." ++ jsTrim k) true a (by rw [hpa])
        have hTk : TrimmedNE (jsTrim k) :=
          ⟨jsTrim_idem k, Nat.pos_of_ne_zero hkey⟩
        apply ih
        · rw [upsert_keys]
          split
          · exact h1
          next hnm =>
            rw [List.nodup_append]
            exact ⟨h1, List.nodup_singleton _,
              fun x hx => by simp; intro he; rw [he] at hx; exact hnm hx⟩
        · intro p hp
          rcases upsert_mem acc (jsTrim k) a p hp with rfl | hp
          · exact ⟨hTk, hWFa⟩
          · exact h2 p hp

unseal Rat.sub Rat.mul Rat.add Rat.inv in
/-- `parseKeyMap` always emits a non-empty, distinct-keyed, well-formed
key map (on failure, the built-in default). -/
theorem parseKeyMap_WF (v : Option Json) :
    (parseKeyMap v).1 ≠ [] ∧ ((parseKeyMap v).1.map Prod.fst).Nodup ∧
      ∀ p ∈ (parseKeyMap v).1, TrimmedNE p.1 ∧ WFaction true p.2 := by
  have hdef : (cloneMotionConfig defaultMotionConfig).keyMap ≠ [] ∧
      (((cloneMotionConfig defaultMotionConfig).keyMap).map Prod.fst).Nodup ∧
      ∀ p ∈ (cloneMotionConfig defaultMotionConfig).keyMap,
        TrimmedNE p.1 ∧ WFaction true p.2 := by decide
  unfold parseKeyMap
  split
  next fields =>
    dsimp only
    split
    next hempty => exact hdef
    next hempty =>
      obtain ⟨h1, h2⟩ := parseKeyMapEntries_WF fields [] (by simp) (by simp)
      refine ⟨?_, h1, h2⟩
      intro he
      rw [List.isEmpty_iff] at hempty
      exact hempty he
  next => exact hdef

/-- Every rule `parseComboRuleItem` emits is well-formed and its id is
not already taken. -/
theorem parseComboRuleItem_WF (item : Json) (path : String)
    (idSet : List String) (r : ComboRule)
    (h : (parseComboRuleItem item path idSet).1 = some r) :
    WFrule r ∧ r.id ∉ idSet := by
  unfold parseComboRuleItem at h
  split at h
  next fields =>
    split at h
    next => cases h
    next id hid =>
      split at h
      next => cases h
      next hcont =>
        split at h
        next seqRaw hseq =>
          split at h
          next => cases h
          next hlen =>
            dsimp only at h
            split at h
            next => cases h
            next hflen =>
              split at h
              next => cases h
              next w hw =>
                split at h
                next => cases h
                next a ae hpa =>
                  split at h
                  next => cases h
                  next hnc =>
                    obtain rfl := Option.some.inj h
                    refine ⟨⟨asNonEmptyString_TrimmedNE _ _ hid, ?_, ?_,
                      (asIntegerInRange_range _ _ _ _ hw).1,
                      (asIntegerInRange_range _ _ _ _ hw).2,
                      parseAction_WF _ _ _ _ (by rw [hpa]), parseCooldown_range _ _⟩,
                      contains_false_not_mem _ _ (Bool.not_eq_true _ ▸
                        Bool.eq_false_iff.mpr hcont)⟩
                    · have heq : (seqRaw.filterMap asNonEmptyStr1).length =
                          seqRaw.length := by
                        by_contra hne
                        exact hflen hne
                      have hle : ¬seqRaw.length < 2 := hlen
                      show 2 ≤ (seqRaw.filterMap asNonEmptyStr1).length
                      omega
                    · intro s hs
                      obtain ⟨j, hj, hjs⟩ := List.mem_filterMap.mp hs
                      exact asNonEmptyStr1_TrimmedNE j s hjs
        next => cases h
  next => cases h

/-- The rule loop of `parseComboRules` keeps ids distinct and every
rule well-formed. -/
theorem parseComboRuleItems_WF (items : List Json) : ∀ idx idSet,
    ((parseComboRuleItems idx idSet items).1.map ComboRule.id).Nodup ∧
      ∀ r ∈ (parseComboRuleItems idx idSet items).1, WFrule r ∧ r.id ∉ idSet := by
  induction items with
  | nil =>
    intro idx idSet
    exact ⟨by simp [parseComboRuleItems], by simp [parseComboRuleItems]⟩
  | cons item rest ih =>
    intro idx idSet
    unfold parseComboRuleItems
    dsimp only
    split
    next errs hnone => exact ih (idx + 1) idSet
    next rule errs hsome =>
      obtain ⟨hwf, hnm⟩ := parseComboRuleItem_WF item _ idSet rule (by rw [hsome])
      obtain ⟨ihn, ihm⟩ := ih (idx + 1) (idSet ++ [rule.id])
      constructor
      · simp only [List.map_cons, List.nodup_cons]
        refine ⟨?_, ihn⟩
        intro hmem
        obtain ⟨r', hr', hre⟩ := List.mem_map.mp hmem
        exact (ihm r' hr').2 (by
          rw [hre]
          exact List.mem_append_right _ (List.mem_cons_self _ _))
      · intro r hr
        rcases List.mem_cons.mp hr with rfl | hr
        · exact ⟨hwf, hnm⟩
        · exact ⟨(ihm r hr).1, fun hm => (ihm r hr).2 (List.mem_append_left _ hm)⟩

unseal Rat.sub Rat.mul Rat.add Rat.inv in
/-- `parseComboRules` always emits distinct, well-formed rules. -/
theorem parseComboRules_WF (v : Option Json) :
    ((parseComboRules v).1.map ComboRule.id).Nodup ∧
      ∀ r ∈ (parseComboRules v).1, WFrule r := by
  have hdef : (((cloneMotionConfig defaultMotionConfig).comboRules).map
      ComboRule.id).Nodup ∧
      ∀ r ∈ (cloneMotionConfig defaultMotionConfig).comboRules, WFrule r := by
    decide
  unfold parseComboRules
  split
  next => exact hdef
  next items =>
    obtain ⟨h1, h2⟩ := parseComboRuleItems_WF items 0 []
    exact ⟨h1, fun r hr => (h2 r hr).1⟩
  next => exact hdef

/-- Every entry the idle-action loop emits is well-formed. -/
theorem parseIdleActionItems_WF (items : List Json) : ∀ idx,
    ∀ e ∈ (parseIdleActionItems idx items).1, WFentry e := by
  induction items with
  | nil => intro idx; simp [parseIdleActionItems]
  | cons item rest ih =>
    intro idx
    unfold parseIdleActionItems
    dsimp only
    split
    next fields =>
      split
      next ae hpa => exact ih (idx + 1)
      next a ae hpa =>
        split
        next => exact ih (idx + 1)
        next hnc =>
          intro e he
          rcases List.mem_cons.mp he with rfl | he
          · exact ⟨parseAction_WF _ _ _ _ (by rw [hpa]), optNumField_range _ _ _ _⟩
          · exact ih (idx + 1) e he
    next => exact ih (idx + 1)

unseal Rat.sub Rat.mul Rat.add Rat.inv in
/-- `parseIdleActions` always emits a non-empty list of well-formed
entries (on failure, the built-in default). -/
theorem parseIdleActions_WF (v : Option Json) :
    (parseIdleActions v).1 ≠ [] ∧ ∀ e ∈ (parseIdleActions v).1, WFentry e := by
  have hdef : (cloneMotionConfig defaultMotionConfig).idle.actions ≠ [] ∧
      ∀ e ∈ (cloneMotionConfig defaultMotionConfig).idle.actions, WFentry e := by
    decide
  unfold parseIdleActions
  split
  next items =>
    dsimp only
    split
    next => exact hdef
    next hne =>
      split
      next hempty => exact hdef
      next hempty =>
        refine ⟨fun he => ?_, parseIdleActionItems_WF items 0⟩
        rw [List.isEmpty_iff] at hempty
        exact hempty he
  next => exact hdef

unseal Rat.sub Rat.mul Rat.add Rat.inv in
/-- `parseIdleConfig` always emits ranged timings and a non-empty,
well-formed action list. -/
theorem parseIdleConfig_WF (v : Option Json) :
    500 ≤ (parseIdleConfig v).1.afterMs ∧ (parseIdleConfig v).1.afterMs ≤ 600000 ∧
    OptIntIn (parseIdleConfig v).1.intervalMs 100 600000 ∧
    (parseIdleConfig v).1.actions ≠ [] ∧
    ∀ e ∈ (parseIdleConfig v).1.actions, WFentry e := by
  have hdef : 500 ≤ (cloneMotionConfig defaultMotionConfig).idle.afterMs ∧
      (cloneMotionConfig defaultMotionConfig).idle.afterMs ≤ 600000 ∧
      OptIntIn (cloneMotionConfig defaultMotionConfig).idle.intervalMs 100 600000 ∧
      (cloneMotionConfig defaultMotionConfig).idle.actions ≠ [] ∧
      ∀ e ∈ (cloneMotionConfig defaultMotionConfig).idle.actions, WFentry e := by
    decide
  unfold parseIdleConfig
  split
  next fields =>
    dsimp only
    refine ⟨?_, ?_, optIntField_range _ _ _ _, (parseIdleActions_WF _).1,
      (parseIdleActions_WF _).2⟩ <;>
      cases hz : asIntegerInRange (jsonGet fields "afterMs") 500 600000 with
      | none => simp only [hz, Option.getD_none]; decide
      | some n =>
        simp only [hz, Option.getD_some]
        first
          | exact (asIntegerInRange_range _ _ _ _ hz).1
          | exact (asIntegerInRange_range _ _ _ _ hz).2
  next => exact hdef

/-- Every config value the validator can hand out is well-formed. -/
theorem validateMotionConfig_value_WF (x : Json) (c : MotionConfig)
    (h : (validateMotionConfig x).value = some c) : WFconfig c := by
  unfold validateMotionConfig at h
  split at h
  next fields =>
    dsimp only at h
    split at h
    next hempty =>
      obtain rfl := Option.some.inj h
      exact ⟨⟨(parseKeyMap_WF _).1, (parseKeyMap_WF _).2.1, (parseKeyMap_WF _).2.2⟩,
        ⟨(parseComboRules_WF _).1, (parseComboRules_WF _).2⟩,
        (parseIdleConfig_WF _).1, (parseIdleConfig_WF _).2.1,
        (parseIdleConfig_WF _).2.2.1, (parseIdleConfig_WF _).2.2.2.1,
        (parseIdleConfig_WF _).2.2.2.2⟩
    next => cases h
  next => cases h

theorem asIntegerInRange_intJson (n lo hi : Int) (h1 : lo ≤ n) (h2 : n ≤ hi) :
    asIntegerInRange (some (intJson n)) lo hi = some n := by
  show (if ((n : ℚ)).den = 1 ∧ lo ≤ ((n : ℚ)).num ∧ ((n : ℚ)).num ≤ hi
    then some ((n : ℚ)).num else none) = some n
  rw [Rat.den_intCast, Rat.num_intCast]
  exact if_pos ⟨rfl, h1, h2⟩

theorem optIntField_mapRT (o : Option Int) (lo hi : Int) (msg : String)
    (h : OptIntIn o lo hi) : optIntField (o.map intJson) lo hi msg = (o, []) := by
  cases o with
  | none => rfl
  | some n =>
    unfold optIntField
    rw [Option.map_some']
    dsimp only
    rw [asIntegerInRange_intJson n lo hi h.1 h.2]

theorem lookup_optField_self (k : String) (v : Option Json) :
    List.lookup k (optField k v) = v := by
  cases v <;> simp [optField, List.lookup]

theorem lookup_tail3_1 (k1 k2 k3 : String) (v1 v2 v3 : Option Json)
    (h2 : (k1 == k2) = false) (h3 : (k1 == k3) = false) :
    List.lookup k1 (optField k1 v1 ++ (optField k2 v2 ++ optField k3 v3)) = v1 := by
  cases v1 <;> cases v2 <;> cases v3 <;> simp [optField, List.lookup, h2, h3]

theorem lookup_tail3_2 (k1 k2 k3 : String) (v1 v2 v3 : Option Json)
    (h1 : (k2 == k1) = false) (h2 : (k2 == k3) = false) :
    List.lookup k2 (optField k1 v1 ++ (optField k2 v2 ++ optField k3 v3)) = v2 := by
  cases v1 <;> cases v2 <;> cases v3 <;> simp [optField, List.lookup, h1, h2]

theorem lookup_tail3_3 (k1 k2 k3 : String) (v1 v2 v3 : Option Json)
    (h1 : (k3 == k1) = false) (h2 : (k3 == k2) = false) :
    List.lookup k3 (optField k1 v1 ++ (optField k2 v2 ++ optField k3 v3)) = v3 := by
  cases v1 <;> cases v2 <;> cases v3 <;> simp [optField, List.lookup, h1, h2]

theorem lookup_tail2_1 (k1 k2 : String) (v1 v2 : Option Json)
    (h2 : (k1 == k2) = false) :
    List.lookup k1 (optField k1 v1 ++ optField k2 v2) = v1 := by
  cases v1 <;> cases v2 <;> simp [optField, List.lookup, h2]

theorem lookup_tail2_2 (k1 k2 : String) (v1 v2 : Option Json)
    (h1 : (k2 == k1) = false) :
    List.lookup k2 (optField k1 v1 ++ optField k2 v2) = v2 := by
  cases v1 <;> cases v2 <;> simp [optField, List.lookup, h1]

theorem optNumField_mapRT (o : Option ℚ) (lo hi : ℚ) (msg : String)
    (h : OptRatIn o lo hi) : optNumField (o.map Json.num) lo hi msg = (o, []) := by
  cases o with
  | none => rfl
  | some q =>
    unfold optNumField
    rw [Option.map_some']
    dsimp only
    show (match (if lo ≤ q ∧ q ≤ hi then some q else none : Option ℚ) with
      | none => ((none : Option ℚ), [msg]) | some x => (some x, [])) = (some q, [])
    rw [if_pos ⟨h.1, h.2⟩]

theorem parseAction_roundtrip (a : InputAction) (path : String) (ac : Bool)
    (h : WFaction ac a) : parseAction (actionToJson a) path ac = (some a, []) := by
  cases a with
  | motion g i p cd =>
    obtain ⟨hg, hi, hp, hcd⟩ := h
    have hm : asNonEmptyStr1 (Json.str "motion") = some "motion" := by decide
    have hgr := asNonEmptyStr1_of_trimmed g hg
    simp [actionToJson, parseAction, parseMotionAction, jsonGet,
      lookup_tail3_1, lookup_tail3_2, lookup_tail3_3, List.lookup, hm, hgr,
      asNonEmptyString, parseCooldown, optIntField_mapRT, hi, hp, hcd]
  | expression n cd =>
    obtain ⟨hn, hcd⟩ := h
    have hm : asNonEmptyStr1 (Json.str "expression") = some "expression" := by decide
    have hnr := asNonEmptyStr1_of_trimmed n hn
    simp [actionToJson, parseAction, jsonGet, lookup_optField_self,
      List.lookup, hm, hnr, asNonEmptyString, parseCooldown, optIntField_mapRT, hcd]
  | tween pr st cd =>
    obtain ⟨hst, hcd⟩ := h
    rw [one_div] at hst
    have hm : asNonEmptyStr1 (Json.str "tween") = some "tween" := by decide
    cases pr <;>
      simp [actionToJson, parseAction, parseTweenAction, presetToStr, jsonGet,
        lookup_tail2_1, lookup_tail2_2, List.lookup, hm, asNonEmptyString,
        parseCooldown, optIntField_mapRT, optNumField_mapRT, hst, hcd]
  | combo rid cd =>
    obtain ⟨hac, hr, hcd⟩ := h
    have hm : asNonEmptyStr1 (Json.str "combo") = some "combo" := by decide
    have hrr := asNonEmptyStr1_of_trimmed rid hr
    subst hac
    simp [actionToJson, parseAction, jsonGet, lookup_optField_self,
      List.lookup, hm, hrr, asNonEmptyString, parseCooldown, optIntField_mapRT, hcd]

theorem WFaction_false_not_combo (a : InputAction) (h : WFaction false a) :
    a.isCombo = false := by
  cases a with
  | combo rid cd => exact absurd h.1 Bool.false_ne_true
  | motion g i p cd => rfl
  | expression n cd => rfl
  | tween p s cd => rfl

theorem upsert_fresh (acc : List (String × InputAction)) (k : String) (a : InputAction)
    (h : k ∉ acc.map Prod.fst) : upsert acc k a = acc ++ [(k, a)] := by
  induction acc with
  | nil => rfl
  | cons q rest ih =>
    obtain ⟨qk, qv⟩ := q
    rw [List.map_cons] at h
    have hne : qk ≠ k := by
      intro he
      exact h (by rw [← he]; exact List.mem_cons_self _ _)
    have h2 : k ∉ rest.map Prod.fst := fun hm => h (List.mem_cons_of_mem _ hm)
    show (if qk = k then (k, a) :: rest else (qk, qv) :: upsert rest k a) =
      ((qk, qv) :: rest) ++ [(k, a)]
    rw [if_neg hne, ih h2]
    rfl

theorem parseKeyMapEntries_roundtrip (m : List (String × InputAction)) :
    ∀ acc, (∀ p ∈ m, TrimmedNE p.1 ∧ WFaction true p.2) →
    (∀ p ∈ m, p.1 ∉ acc.map Prod.fst) → (m.map Prod.fst).Nodup →
    parseKeyMapEntries acc (m.map (fun p => (p.1, actionToJson p.2))) = (acc ++ m, []) := by
  induction m with
  | nil =>
    intro acc _ _ _
    simp [parseKeyMapEntries]
  | cons p rest ih =>
    intro acc hwf hfresh hnd
    obtain ⟨hk1, hk2⟩ := (hwf p (List.mem_cons_self _ _)).1
    have ha := (hwf p (List.mem_cons_self _ _)).2
    rw [List.map_cons] at hnd
    obtain ⟨hpn, hnd'⟩ := List.nodup_cons.mp hnd
    rw [List.map_cons]
    simp only [parseKeyMapEntries]
    rw [hk1, if_neg (by omega : ¬ p.1.length = 0)]
    rw [parseAction_roundtrip p.2 ("keyMap." ++ p.1) true ha]
    dsimp only
    rw [upsert_fresh acc p.1 p.2 (hfresh p (List.mem_cons_self _ _))]
    have hfresh' : ∀ q ∈ rest, q.1 ∉ (acc ++ [(p.1, p.2)]).map Prod.fst := by
      intro q hq
      rw [List.map_append]
      intro hmem
      rcases List.mem_append.mp hmem with hmem | hmem
      · exact hfresh q (List.mem_cons_of_mem _ hq) hmem
      · have hqp : q.1 = p.1 := by simpa using hmem
        exact hpn (hqp ▸ List.mem_map_of_mem Prod.fst hq)
    rw [ih (acc ++ [(p.1, p.2)]) (fun q hq => hwf q (List.mem_cons_of_mem _ hq))
      hfresh' hnd']
    simp

theorem parseKeyMap_roundtrip (m : List (String × InputAction))
    (hne : m ≠ []) (hnd : (m.map Prod.fst).Nodup)
    (hwf : ∀ p ∈ m, TrimmedNE p.1 ∧ WFaction true p.2) :
    parseKeyMap (some (.obj (m.map (fun p => (p.1, actionToJson p.2))))) = (m, []) := by
  unfold parseKeyMap
  dsimp only
  rw [parseKeyMapEntries_roundtrip m [] hwf (by simp) hnd]
  simp [List.isEmpty_iff, hne]

theorem not_mem_contains_false (l : List String) (s : String) (h : s ∉ l) :
    l.contains s = false := by
  cases hh : l.contains s with
  | false => rfl
  | true =>
    rw [show l.contains s = l.elem s from rfl] at hh
    exact absurd (List.elem_iff.mp hh) h

theorem filterMap_str_all (ss : List String) (h : ∀ s ∈ ss, TrimmedNE s) :
    (ss.map Json.str).filterMap asNonEmptyStr1 = ss := by
  induction ss with
  | nil => rfl
  | cons s rest ih =>
    rw [List.map_cons, List.filterMap_cons,
      asNonEmptyStr1_of_trimmed s (h s (List.mem_cons_self _ _)),
      ih (fun q hq => h q (List.mem_cons_of_mem _ hq))]

theorem parseComboRuleItem_roundtrip (r : ComboRule) (path : String)
    (idSet : List String) (hwf : WFrule r) (hni : r.id ∉ idSet) :
    parseComboRuleItem (comboRuleToJson r) path idSet = (some r, []) := by
  obtain ⟨hid, hlen, hseq, hw1, hw2, hact, hcd⟩ := hwf
  have hid' := asNonEmptyStr1_of_trimmed r.id hid
  have hc := not_mem_contains_false idSet r.id hni
  have hfm := filterMap_str_all r.sequence hseq
  have hnc := WFaction_false_not_combo r.action hact
  simp [comboRuleToJson, parseComboRuleItem, jsonGet, jsonGetD, List.lookup,
    lookup_optField_self, asNonEmptyString, hid', hc,
    (by omega : ¬ r.sequence.length < 2), hfm,
    asIntegerInRange_intJson r.withinMs 1 10000 hw1 hw2,
    parseAction_roundtrip r.action (path ++ ".action") false hact, hnc,
    parseCooldown, optIntField_mapRT, hcd]
  rw [if_neg hni, if_neg (by omega : ¬ r.sequence.length < 2)]

theorem parseComboRuleItems_roundtrip (rs : List ComboRule) :
    ∀ idx idSet, (∀ r ∈ rs, WFrule r) → (∀ r ∈ rs, r.id ∉ idSet) →
    (rs.map ComboRule.id).Nodup →
    parseComboRuleItems idx idSet (rs.map comboRuleToJson) = (rs, []) := by
  induction rs with
  | nil =>
    intro idx idSet _ _ _
    rfl
  | cons r rest ih =>
    intro idx idSet hwf hfr hnd
    rw [List.map_cons] at hnd
    obtain ⟨hrn, hnd'⟩ := List.nodup_cons.mp hnd
    rw [List.map_cons]
    simp only [parseComboRuleItems]
    rw [parseComboRuleItem_roundtrip r _ idSet (hwf r (List.mem_cons_self _ _))
      (hfr r (List.mem_cons_self _ _))]
    dsimp only
    have hfr' : ∀ q ∈ rest, q.id ∉ idSet ++ [r.id] := by
      intro q hq hmem
      rcases List.mem_append.mp hmem with hm | hm
      · exact hfr q (List.mem_cons_of_mem _ hq) hm
      · have hqr : q.id = r.id := by simpa using hm
        exact hrn (hqr ▸ List.mem_map_of_mem ComboRule.id hq)
    rw [ih (idx + 1) (idSet ++ [r.id])
      (fun q hq => hwf q (List.mem_cons_of_mem _ hq)) hfr' hnd']
    rfl

theorem parseComboRules_roundtrip (rs : List ComboRule)
    (hwf : ∀ r ∈ rs, WFrule r) (hnd : (rs.map ComboRule.id).Nodup) :
    parseComboRules (some (.arr (rs.map comboRuleToJson))) = (rs, []) := by
  unfold parseComboRules
  exact parseComboRuleItems_roundtrip rs 0 [] hwf (by simp) hnd

theorem lookup_optField_cons1 (k k' : String) (v : Option Json) (j : Json)
    (h : (k == k') = false) :
    List.lookup k (optField k v ++ [(k', j)]) = v := by
  cases v <;> simp [optField, List.lookup, h]

theorem lookup_optField_skip1 (k k' : String) (v : Option Json) (j : Json)
    (h : (k' == k) = false) :
    List.lookup k' (optField k v ++ [(k', j)]) = some j := by
  cases v <;> simp [optField, List.lookup, h]

theorem parseIdleActionItems_roundtrip (es : List IdleEntry) :
    ∀ idx, (∀ e ∈ es, WFentry e) →
    parseIdleActionItems idx (es.map idleEntryToJson) = (es, []) := by
  induction es with
  | nil =>
    intro idx _
    rfl
  | cons e rest ih =>
    intro idx hwf
    obtain ⟨hact, hw⟩ := hwf e (List.mem_cons_self _ _)
    rw [one_div] at hw
    have hnc := WFaction_false_not_combo e.action hact
    rw [List.map_cons]
    simp only [parseIdleActionItems]
    simp [idleEntryToJson, jsonGet, jsonGetD, List.lookup, lookup_optField_self,
      parseAction_roundtrip e.action, hact, hnc, optNumField_mapRT, hw,
      ih (idx + 1) (fun q hq => hwf q (List.mem_cons_of_mem _ hq))]

theorem parseIdleActions_roundtrip (es : List IdleEntry) (hne : es ≠ [])
    (hwf : ∀ e ∈ es, WFentry e) :
    parseIdleActions (some (.arr (es.map idleEntryToJson))) = (es, []) := by
  unfold parseIdleActions
  dsimp only
  rw [parseIdleActionItems_roundtrip es 0 hwf]
  simp [List.isEmpty_iff, hne]

theorem parseIdleConfig_roundtrip (i : IdleConfig)
    (h1 : 500 ≤ i.afterMs) (h2 : i.afterMs ≤ 600000)
    (hint : OptIntIn i.intervalMs 100 600000) (hne : i.actions ≠ [])
    (hwf : ∀ e ∈ i.actions, WFentry e) :
    parseIdleConfig (some (idleConfigToJson i)) = (i, []) := by
  simp [parseIdleConfig, idleConfigToJson, jsonGet, List.lookup,
    lookup_optField_cons1, lookup_optField_skip1,
    asIntegerInRange_intJson i.afterMs 500 600000 h1 h2,
    optIntField_mapRT, hint,
    parseIdleActions_roundtrip i.actions hne hwf]

theorem validateMotionConfig_roundtrip (c : MotionConfig) (hwf : WFconfig c) :
    validateMotionConfig (motionConfigToJson c) = ⟨true, [], some c⟩ := by
  obtain ⟨⟨hk1, hk2, hk3⟩, ⟨hr1, hr2⟩, hi1, hi2, hi3, hi4, hi5⟩ := hwf
  simp [validateMotionConfig, motionConfigToJson, jsonGet, List.lookup,
    parseKeyMap_roundtrip c.keyMap hk1 hk2 hk3,
    parseComboRules_roundtrip c.comboRules hr2 hr1,
    parseIdleConfig_roundtrip c.idle hi1 hi2 hi3 hi4 hi5]

unseal Rat.sub Rat.mul Rat.add Rat.inv in
theorem cloneDefault_WF : WFconfig (cloneMotionConfig defaultMotionConfig) := by
  decide

theorem resolveMotionConfig_of_WF (c : MotionConfig) (hwf : WFconfig c) :
    resolveMotionConfig (motionConfigToJson c) = c := by
  unfold resolveMotionConfig
  rw [validateMotionConfig_roundtrip c hwf]

theorem resolveMotionConfig_WF (x : Json) : WFconfig (resolveMotionConfig x) := by
  unfold resolveMotionConfig
  split
  next e v heq => exact validateMotionConfig_value_WF x v (by rw [heq])
  next => exact cloneDefault_WF

/-- C4: normalization is idempotent.  For every input `x`,
re-resolving the resolved config (fed back as its runtime JSON value)
gives the config `resolveMotionConfig x` gave, and any config that
`validateMotionConfig` emitted re-validates to `ok = true`, no errors,
and the very same value. -/
theorem resolveMotionConfig_idempotent (x : Json) :
    resolveMotionConfig (motionConfigToJson (resolveMotionConfig x)) =
      resolveMotionConfig x ∧
    ∀ c, (validateMotionConfig x).value = some c →
      validateMotionConfig (motionConfigToJson c) = ⟨true, [], some c⟩ := by
  constructor
  · exact resolveMotionConfig_of_WF (resolveMotionConfig x) (resolveMotionConfig_WF x)
  · intro c hval
    exact validateMotionConfig_roundtrip c (validateMotionConfig_value_WF x c hval)

unseal Rat.sub Rat.mul Rat.add Rat.inv in
/-- Witness for C4 at the concrete inputs `null` and the default
config: both hypotheses discharged by evaluation. -/
theorem resolveMotionConfig_idempotent_witness :
    resolveMotionConfig (motionConfigToJson (resolveMotionConfig Json.null)) =
      resolveMotionConfig Json.null ∧
    validateMotionConfig (motionConfigToJson defaultMotionConfig) =
      ⟨true, [], some defaultMotionConfig⟩ :=
  ⟨(resolveMotionConfig_idempotent Json.null).1,
    (resolveMotionConfig_idempotent (motionConfigToJson defaultMotionConfig)).2
      defaultMotionConfig (by decide)⟩

end PetOnDesk
